import Mathlib

/-! The bloom filter policy of lcdb (`src/util/bloom.c`)

A shallow embedding of `bloom.c` and theorems about it.

Conventions of the embedding:

* a byte is a natural number; a store into a `uint8_t` is written `% 256`;
* `uint32_t` arithmetic is written `% 2 ^ 32`, `size_t` arithmetic `% 2 ^ 64`;
* a slice, a buffer and the memory behind a `uint8_t *` are lists of bytes; reading past
  the end of a list yields `0` and writing past the end does nothing (in C both are
  undefined; the theorems state the conditions under which they do not happen);
* `rdb_hash` (declared in `hash.h`, whose body is not among the sources) is a parameter:
  any function from a byte string and a seed to a number, reduced to 32 bits where the
  C return type `uint32_t` does so.
-/

namespace Lcdb

/-! ## Data model -/

/-- The bytes viewed by an `rdb_slice_t` (pointer and size). -/
abbrev rdb_slice_t := List Nat

/-- The contents of an `rdb_buffer_t`. -/
abbrev rdb_buffer_t := List Nat

/-- The two functions a policy can point to. -/
inductive rdb_fn_t where
  | bloom_build
  | bloom_match
  deriving DecidableEq, Repr

/-- The policy record `rdb_bloom_t`. `name` is the memory of the C string the `name`
pointer refers to, terminator included; `build` and `match_` are the function pointers;
`bits_per_key` and `k` are `size_t`; `user_policy` is `none` for `NULL`. -/
structure rdb_bloom_t where
  name : List Nat
  build : rdb_fn_t
  match_ : rdb_fn_t
  bits_per_key : Nat
  k : Nat
  user_policy : Option Nat
  deriving DecidableEq, Repr

/-- The memory of a string literal: its characters followed by the terminator. -/
def c_string (s : String) : List Nat :=
  s.toList.map Char.toNat ++ [0]

/-- The static `bloom_default`. -/
def bloom_default : rdb_bloom_t :=
  rdb_bloom_t.mk (c_string "leveldb.BuiltinBloomFilter2")
    rdb_fn_t.bloom_build rdb_fn_t.bloom_match 10 6 none

/-! ## The product `bits_per_key * 0.69` in double precision -/

/-- The double nearest to `0.69` is `DBL_0_69 / 2 ^ 53` (`0x1.6147ae147ae14p-1`). -/
def DBL_0_69 : Nat := 6214967485771284

/-- The number of low bits of `x` that do not fit a 53-bit significand: the least `s`
with `x / 2 ^ s < 2 ^ 53`, found by halving at most `fuel` times. -/
def excess_bits : Nat → Nat → Nat
  | 0, _ => 0
  | fuel + 1, x => if x < 2 ^ 53 then 0 else excess_bits fuel (x / 2) + 1

/-- Rounding of the real number `x / 2 ^ 53` to the nearest double, ties to even, the
result again in units of `2 ^ -53`: `x` keeps its 53 leading bits, and the bits dropped
decide whether the last kept bit is incremented. -/
def round_to_double (x : Nat) : Nat :=
  let s := excess_bits x x
  let q := x / 2 ^ s
  let r := x % 2 ^ s
  (if 2 ^ s < 2 * r ∨ (2 * r = 2 ^ s ∧ q % 2 = 1) then q + 1 else q) * 2 ^ s

/-- The value `bits_per_key * 0.69` converted to `size_t`: the integer is converted to
double exactly, the product is rounded to double, the conversion truncates. -/
def mul_0_69_to_size_t (bits_per_key : Nat) : Nat :=
  round_to_double (bits_per_key * DBL_0_69) / 2 ^ 53

/-! ## `rdb_bloom_init` -/

/-- The function `rdb_bloom_init`, for the non-negative values of its `int` argument
(`bloom` is the record being overwritten). -/
def rdb_bloom_init (_bloom : rdb_bloom_t) (bits_per_key : Nat) : rdb_bloom_t :=
  let k := mul_0_69_to_size_t bits_per_key
  let k := if k < 1 then 1 else k
  let k := if k > 30 then 30 else k
  rdb_bloom_t.mk bloom_default.name bloom_default.build bloom_default.match_
    bits_per_key k none

/-! ## `rdb_bloom_name` -/

/-- The C library `strlen`: the number of bytes before the first zero byte. -/
def strlen : List Nat → Nat
  | [] => 0
  | c :: cs => if c = 0 then 0 else strlen cs + 1

/-- The C library `memcpy(dst + off, src, n)`: bytes `off .. off + n` of `dst` are
replaced by the first `n` bytes of `src`. -/
def memcpy (dst : List Nat) (off : Nat) (src : List Nat) (n : Nat) : List Nat :=
  dst.take off ++ src.take n ++ dst.drop (off + n)

/-- The function `rdb_bloom_name`: the return value and the buffer afterwards. -/
def rdb_bloom_name (buf : List Nat) (size : Nat) (bloom : rdb_bloom_t) : Int × List Nat :=
  let name := bloom.name
  let len := strlen name
  if (7 + len + 1) % 2 ^ 64 > size then (0, buf)
  else
    let buf := memcpy buf 0 (c_string "filter.") 7
    let buf := memcpy buf 7 name (len + 1)
    (1, buf)

/-! ## Building and matching -/

section Hash

variable (rdb_hash : List Nat → Nat → Nat)

/-- The function `bloom_hash`. -/
def bloom_hash (key : rdb_slice_t) : Nat :=
  rdb_hash key 0xbc9f1d34 % 2 ^ 32

/-- The function `bloom_size`. -/
def bloom_size (bloom : rdb_bloom_t) (n : Nat) : Nat :=
  let bits := n * bloom.bits_per_key % 2 ^ 64
  let bits := if bits < 64 then 64 else bits
  (bits + 7) % 2 ^ 64 / 8

/-- The loop of `bloom_add` with `n` iterations left and running hash `hash`. -/
def bloom_add_loop (bits delta : Nat) : Nat → Nat → List Nat → List Nat
  | 0, _, data => data
  | n + 1, hash, data =>
    let pos := hash % bits % 2 ^ 32
    let data := data.set (pos / 8) ((data.getD (pos / 8) 0 ||| (1 <<< (pos % 8))) % 256)
    bloom_add_loop bits delta n ((hash + delta) % 2 ^ 32) data

/-- The function `bloom_add`. -/
def bloom_add (bloom : rdb_bloom_t) (data : List Nat) (key : rdb_slice_t) (bits : Nat) :
    List Nat :=
  let hash := bloom_hash rdb_hash key
  let delta := ((hash >>> 17) ||| ((hash <<< 15) % 2 ^ 32))
  bloom_add_loop bits delta bloom.k hash data

/-- Modelled from the spec: `rdb_buffer_pad` of `buffer.c`, which is not among the
sources. Section 4.2 step 2 has the region zero-initialised: the buffer grows by `size`
zero bytes, and the pointer returned is the offset of the first of them. -/
def rdb_buffer_pad (dst : rdb_buffer_t) (size : Nat) : rdb_buffer_t × Nat :=
  (dst ++ List.replicate size 0, dst.length)

/-- The function `bloom_build`: the destination buffer afterwards. `data` is the memory
from the pointer `rdb_buffer_pad` returns to the end of the buffer. -/
def bloom_build (bloom : rdb_bloom_t) (dst : rdb_buffer_t) (keys : List rdb_slice_t) :
    rdb_buffer_t :=
  let length := keys.length
  let bytes := bloom_size bloom length
  let bits := bytes * 8 % 2 ^ 64
  let padded := rdb_buffer_pad dst ((bytes + 1) % 2 ^ 64)
  let data := padded.1.drop padded.2
  let data := keys.foldl (fun data key => bloom_add rdb_hash bloom data key bits) data
  let data := data.set bytes (bloom.k % 256)
  padded.1.take padded.2 ++ data

/-- The probe loop of `bloom_match` with `n` iterations left and running hash `hash`. -/
def bloom_match_loop (data : List Nat) (bits delta : Nat) : Nat → Nat → Int
  | 0, _ => 1
  | n + 1, hash =>
    let pos := hash % bits % 2 ^ 32
    if data.getD (pos / 8) 0 &&& (1 <<< (pos % 8)) = 0 then 0
    else bloom_match_loop data bits delta n ((hash + delta) % 2 ^ 32)

/-- The function `bloom_match`. -/
def bloom_match (_bloom : rdb_bloom_t) (filter : rdb_slice_t) (key : rdb_slice_t) : Int :=
  let data := filter
  let len := filter.length
  if len < 2 then 0
  else
    let bits := (len - 1) * 8 % 2 ^ 64
    let k := data.getD (len - 1) 0
    if k > 30 then 1
    else
      let hash := bloom_hash rdb_hash key
      let delta := ((hash >>> 17) ||| ((hash <<< 15) % 2 ^ 32))
      bloom_match_loop data bits delta k hash

end Hash

/-! ## Bits and probe positions -/

/-- Bit `pos` of a bit array: bit `pos % 8`, least significant first, of byte `pos / 8`. -/
def bit_at (data : List Nat) (pos : Nat) : Bool :=
  (data.getD (pos / 8) 0).testBit (pos % 8)

/-- The positions the loops of `bloom_add` and `bloom_match` visit in `n` iterations
from running hash `hash`: each is the running hash reduced modulo `bits`, and the
running hash advances by `delta` modulo `2 ^ 32`. -/
def probe_positions (bits delta : Nat) : Nat → Nat → List Nat
  | 0, _ => []
  | n + 1, hash => (hash % bits % 2 ^ 32) :: probe_positions bits delta n ((hash + delta) % 2 ^ 32)

/-- The positions probed for a key by a loop of `k` iterations with modulus `bits`. -/
def key_probes (rdb_hash : List Nat → Nat → Nat) (k bits : Nat) (key : rdb_slice_t) :
    List Nat :=
  probe_positions bits
    ((bloom_hash rdb_hash key >>> 17) ||| ((bloom_hash rdb_hash key <<< 15) % 2 ^ 32))
    k (bloom_hash rdb_hash key)

/-! ## The formulas of the specification -/

/-- The invariant of section 3 of the specification, in exact rational arithmetic:
`clamp(round(bits_per_key * ln2), 1, 30)` with `ln2` taken as `0.6931`. -/
def spec_k (bits_per_key : Nat) : Int :=
  max 1 (min 30 (round ((bits_per_key : ℚ) * (6931 / 10000))))


/-- The probe position of section 4.2 step 3 of the specification:
`(hash + i * delta) mod bits` with `bits = max(64, n * bits_per_key)`. -/
def spec_position (hash delta n bits_per_key i : Nat) : Nat :=
  (hash + i * delta) % max 64 (n * bits_per_key)

/-- Rotation of a 32-bit value right by `r` bit positions (`r ≤ 32`), as the
specification words it: the low `r` bits become the high bits, the other bits move down
by `r`. -/
def rotate_right_32 (h r : Nat) : Nat :=
  h % 2 ^ 32 / 2 ^ r + h % 2 ^ r * 2 ^ (32 - r)

/-! ## Statements and checked loops of `bloom.c` -/

/-- The value both `bloom_add` and `bloom_match` assign to `delta`. -/
def bloom_delta (hash : Nat) : Nat :=
  (hash >>> 17) ||| ((hash <<< 15) % 2 ^ 32)

/-- The statement `data[pos / 8] |= (1 << (pos % 8))` of `bloom_add`. -/
def set_bit (data : List Nat) (pos : Nat) : List Nat :=
  data.set (pos / 8) ((data.getD (pos / 8) 0 ||| (1 <<< (pos % 8))) % 256)

/-- The loop of `bloom_add` with its two undefined operations made explicit: the result
is `none` as soon as an iteration would divide by zero (`bits = 0`) or would write a byte
at index `limit` or beyond; otherwise it is what `bloom_add_loop` computes. -/
def bloom_add_loop_checked (bits delta limit : Nat) : Nat → Nat → List Nat → Option (List Nat)
  | 0, _, data => some data
  | n + 1, hash, data =>
    if bits = 0 then none
    else
      let pos := hash % bits % 2 ^ 32
      if pos / 8 < limit then
        bloom_add_loop_checked bits delta limit n ((hash + delta) % 2 ^ 32)
          (data.set (pos / 8) ((data.getD (pos / 8) 0 ||| (1 <<< (pos % 8))) % 256))
      else none

/-- The probe loop of `bloom_match` with its two undefined operations made explicit:
`none` as soon as an iteration would divide by zero or would read a byte at index `limit`
or beyond; otherwise what `bloom_match_loop` computes. -/
def bloom_match_loop_checked (data : List Nat) (bits delta limit : Nat) : Nat → Nat → Option Int
  | 0, _ => some 1
  | n + 1, hash =>
    if bits = 0 then none
    else
      let pos := hash % bits % 2 ^ 32
      if pos / 8 < limit then
        if data.getD (pos / 8) 0 &&& (1 <<< (pos % 8)) = 0 then some 0
        else bloom_match_loop_checked data bits delta limit n ((hash + delta) % 2 ^ 32)
      else none

/-- The function `bloom_add` run with the checked loop: `limit` is the number of bytes
of the bit array, the bytes the loop may write. -/
def bloom_add_checked (rdb_hash : List Nat → Nat → Nat) (bloom : rdb_bloom_t)
    (data : List Nat) (key : rdb_slice_t) (bits limit : Nat) : Option (List Nat) :=
  let hash := bloom_hash rdb_hash key
  let delta := ((hash >>> 17) ||| ((hash <<< 15) % 2 ^ 32))
  bloom_add_loop_checked bits delta limit bloom.k hash data

/-- The function `bloom_build` with every call of `bloom_add` checked against the `bytes`
bytes of the bit array, and the store of `k` checked against the `bytes + 1` bytes of
the region: `none` as soon as a step would divide by zero or index outside its bounds. -/
def bloom_build_checked (rdb_hash : List Nat → Nat → Nat) (bloom : rdb_bloom_t)
    (dst : rdb_buffer_t) (keys : List rdb_slice_t) : Option rdb_buffer_t :=
  let length := keys.length
  let bytes := bloom_size bloom length
  let bits := bytes * 8 % 2 ^ 64
  let padded := rdb_buffer_pad dst ((bytes + 1) % 2 ^ 64)
  let data := padded.1.drop padded.2
  match keys.foldlM (fun data key => bloom_add_checked rdb_hash bloom data key bits bytes)
      data with
  | none => none
  | some data =>
    if bytes < data.length then some (padded.1.take padded.2 ++ data.set bytes (bloom.k % 256))
    else none

/-! ## Allocation (`src/util/internal.c`) -/

/-- How a call ends: it returns a value, or `abort()` terminates the process. -/
inductive outcome (α : Type) where
  | returned : α → outcome α
  | aborted : outcome α
  deriving DecidableEq, Repr

/-- A `void *`: `none` is `NULL`, `some b` is the address of a block. -/
abbrev pointer := Option Nat

/-- The function `rdb_malloc`; `malloc` is the allocator of the C library, any function
from the size requested to a block or `NULL`. -/
def rdb_malloc (malloc : Nat → pointer) (size : Nat) : outcome pointer :=
  let ptr := malloc size
  if ptr = none then outcome.aborted
  else outcome.returned ptr

/-- The function `rdb_realloc`; `realloc` is that of the C library. -/
def rdb_realloc (realloc : pointer → Nat → pointer) (ptr : pointer) (size : Nat) :
    outcome pointer :=
  let ptr := realloc ptr size
  if ptr = none then outcome.aborted
  else outcome.returned ptr

/-- The function `rdb_free` on a heap of type `H`; `free` is that of the C library. The
`return` after `abort()` is never reached. -/
def rdb_free {H : Type} (free : pointer → H → H) (ptr : pointer) (heap : H) : outcome H :=
  if ptr = none then outcome.aborted
  else outcome.returned (free ptr heap)

/-! ## The probe count -/

theorem kept_bits_ge (fuel x : Nat) (hx : 2 ^ 52 ≤ x) :
    2 ^ 52 ≤ x / 2 ^ excess_bits fuel x := by
  induction fuel generalizing x with
  | zero => simpa [excess_bits] using hx
  | succ fuel ih =>
    unfold excess_bits
    split
    · simpa using hx
    · rename_i h
      have h2 : 2 ^ 52 ≤ x / 2 := by
        have : 2 ^ 53 ≤ x := Nat.le_of_not_lt h
        omega
      have e : x / 2 ^ (excess_bits fuel (x / 2) + 1) = x / 2 / 2 ^ excess_bits fuel (x / 2) := by
        rw [Nat.div_div_eq_div_mul, Nat.pow_succ, Nat.mul_comm]
      rw [e]
      exact ih (x / 2) h2

theorem excess_bits_lt (fuel x : Nat) (hx : x < 2 ^ 53 * 2 ^ fuel) :
    x / 2 ^ excess_bits fuel x < 2 ^ 53 := by
  induction fuel generalizing x with
  | zero => simpa [excess_bits] using hx
  | succ fuel ih =>
    unfold excess_bits
    split
    · rename_i h
      simpa using h
    · have h2 : x / 2 < 2 ^ 53 * 2 ^ fuel := by
        rw [Nat.pow_succ] at hx
        omega
      have e : x / 2 ^ (excess_bits fuel (x / 2) + 1) = x / 2 / 2 ^ excess_bits fuel (x / 2) := by
        rw [Nat.div_div_eq_div_mul, Nat.pow_succ, Nat.mul_comm]
      rw [e]
      exact ih (x / 2) h2

/-- The fuel `round_to_double` gives `excess_bits` always suffices: what is kept of `x`
fits the 53 bits of a significand. -/
theorem kept_bits_lt (x : Nat) : x / 2 ^ excess_bits x x < 2 ^ 53 := by
  apply excess_bits_lt
  calc x < 2 ^ x := Nat.lt_two_pow x
    _ ≤ 2 ^ 53 * 2 ^ x := Nat.le_mul_of_pos_left _ (by positivity)

theorem kept_le_round_to_double (x : Nat) :
    x / 2 ^ excess_bits x x * 2 ^ excess_bits x x ≤ round_to_double x := by
  unfold round_to_double
  apply Nat.mul_le_mul_right
  split <;> omega

theorem thirty_le_round_to_double (x : Nat) (hx : 30 * 2 ^ 53 ≤ x) :
    30 * 2 ^ 53 ≤ round_to_double x := by
  refine le_trans ?_ (kept_le_round_to_double x)
  have hq : 2 ^ 52 ≤ x / 2 ^ excess_bits x x := kept_bits_ge x x (by omega)
  rcases Nat.lt_or_ge 5 (excess_bits x x) with hs | hs
  · calc 30 * 2 ^ 53 ≤ 2 ^ 52 * 2 ^ 6 := by norm_num
      _ ≤ 2 ^ 52 * 2 ^ excess_bits x x :=
        Nat.mul_le_mul_left _ (Nat.pow_le_pow_right (by norm_num) hs)
      _ ≤ x / 2 ^ excess_bits x x * 2 ^ excess_bits x x := Nat.mul_le_mul_right _ hq
  · have hdvd : 2 ^ excess_bits x x ∣ 30 * 2 ^ 53 :=
      dvd_trans (pow_dvd_pow 2 hs) ⟨15 * 2 ^ 49, by norm_num⟩
    obtain ⟨c, hc⟩ := hdvd
    have hc2 : c ≤ x / 2 ^ excess_bits x x := by
      rw [Nat.le_div_iff_mul_le (by positivity)]
      rw [mul_comm]; rw [← hc]; exact hx
    calc 30 * 2 ^ 53 = c * 2 ^ excess_bits x x := by rw [hc, mul_comm]
      _ ≤ _ := Nat.mul_le_mul_right _ hc2

theorem thirty_le_mul_0_69 (b : Nat) (hb : 44 ≤ b) : 30 ≤ mul_0_69_to_size_t b := by
  unfold mul_0_69_to_size_t
  rw [Nat.le_div_iff_mul_le (by positivity)]
  apply thirty_le_round_to_double
  have : 44 * DBL_0_69 ≤ b * DBL_0_69 := Nat.mul_le_mul_right _ hb
  have h2 : 30 * 2 ^ 53 ≤ 44 * DBL_0_69 := by decide
  omega

theorem mul_0_69_small : ∀ b < 44, mul_0_69_to_size_t b = b * 69 / 100 := by decide

theorem rdb_bloom_init_k (b0 : rdb_bloom_t) (b : Nat) :
    (rdb_bloom_init b0 b).k = max 1 (min 30 (b * 69 / 100)) := by
  simp only [rdb_bloom_init]
  rcases Nat.lt_or_ge b 44 with h | h
  · rw [mul_0_69_small b h]
    split <;> split <;> omega
  · have h1 := thirty_le_mul_0_69 b h
    have h2 : 30 ≤ b * 69 / 100 := by omega
    split <;> split <;> omega

theorem rdb_bloom_init_k_bounds (b0 : rdb_bloom_t) (b : Nat) :
    1 ≤ (rdb_bloom_init b0 b).k ∧ (rdb_bloom_init b0 b).k ≤ 30 := by
  rw [rdb_bloom_init_k]
  omega

theorem floor_mul_0_69 (b : Nat) : ⌊(b : ℚ) * (69 / 100)⌋ = ((b * 69 / 100 : Nat) : Int) := by
  have e : (b : ℚ) * (69 / 100) = ((b * 69 : Nat) : ℚ) / ((100 : Nat) : ℚ) := by
    push_cast; ring
  rw [e, Rat.floor_natCast_div_natCast]
  norm_cast

theorem spec_k_ten : spec_k 10 = 7 := by
  have h : round (((10 : Nat) : ℚ) * (6931 / 10000)) = 7 := by
    rw [round_eq, Int.floor_eq_iff]
    norm_num
  unfold spec_k
  rw [h]
  decide

/-- C7. For every non-negative `bits_per_key`, `rdb_bloom_init` leaves `1 ≤ k ≤ 30`;
`bits_per_key = 0` gives `k = 1` and `bits_per_key = 10000` gives `k = 30`. -/
theorem rdb_bloom_init_k_clamped (b0 : rdb_bloom_t) :
    (∀ bits_per_key : Nat,
      1 ≤ (rdb_bloom_init b0 bits_per_key).k ∧ (rdb_bloom_init b0 bits_per_key).k ≤ 30) ∧
    (rdb_bloom_init b0 0).k = 1 ∧ (rdb_bloom_init b0 10000).k = 30 := by
  refine ⟨fun b => rdb_bloom_init_k_bounds b0 b, ?_, ?_⟩
  · rw [rdb_bloom_init_k]; decide
  · rw [rdb_bloom_init_k]; decide

/-- C8, as stated, fails at `bits_per_key = 10`: the code stores `k = 6`, while
`clamp(round(10 * 0.6931), 1, 30)` is `7`. -/
theorem rdb_bloom_init_k_not_spec_k :
    ((rdb_bloom_init bloom_default 10).k : Int) = 6 ∧ spec_k 10 = 7 ∧
    ((rdb_bloom_init bloom_default 10).k : Int) ≠ spec_k 10 := by
  have h1 : (rdb_bloom_init bloom_default 10).k = 6 := by decide
  refine ⟨by rw [h1]; rfl, spec_k_ten, ?_⟩
  rw [h1, spec_k_ten]
  decide

/-- C8, amended. For every non-negative `bits_per_key`, the `k` that `rdb_bloom_init`
stores is `clamp(floor(bits_per_key * 0.69), 1, 30)` in exact rational arithmetic: the
factor is `0.69` and the product is rounded down. -/
theorem rdb_bloom_init_k_formula (b0 : rdb_bloom_t) (bits_per_key : Nat) :
    ((rdb_bloom_init b0 bits_per_key).k : Int) =
      max 1 (min 30 ⌊(bits_per_key : ℚ) * (69 / 100)⌋) := by
  rw [rdb_bloom_init_k, floor_mul_0_69]
  push_cast
  rfl

/-! ## Bits of a byte -/

theorem and_one_shiftLeft_eq_zero (b j : Nat) :
    b &&& (1 <<< j) = 0 ↔ b.testBit j = false := by
  rw [Nat.one_shiftLeft, Nat.and_two_pow]
  cases h : b.testBit j <;> simp

theorem testBit_or_bit_mod (b j t : Nat) (ht : t < 8) :
    ((b ||| (1 <<< j)) % 256).testBit t = (b.testBit t || decide (j = t)) := by
  have h256 : (256 : Nat) = 2 ^ 8 := by norm_num
  rw [h256, Nat.testBit_mod_two_pow, Nat.testBit_lor, Nat.one_shiftLeft, Nat.testBit_two_pow]
  simp [ht]

/-! ## Degenerate and reserved blobs -/

/-- C5. A blob of length 0 or 1, whatever its content, matches no key, for every policy
and every hash function (neither the hash nor any bit of the blob enters the result). -/
theorem bloom_match_degenerate (rdb_hash : List Nat → Nat → Nat) (bloom : rdb_bloom_t)
    (filter key : rdb_slice_t) (hlen : filter.length < 2) :
    bloom_match rdb_hash bloom filter key = 0 := by
  simp [bloom_match, hlen]

theorem bloom_match_degenerate_witness :
    ([200] : rdb_slice_t).length < 2 ∧
    bloom_match (fun data seed => data.sum + seed) bloom_default [200] [1, 2, 3] = 0 :=
  ⟨by decide, bloom_match_degenerate _ _ _ _ (by decide)⟩

/-- C6. A blob of length at least 2 whose trailing byte is 31 or more matches every key,
whatever the bit array holds, for every policy and every hash function. -/
theorem bloom_match_reserved_k (rdb_hash : List Nat → Nat → Nat) (bloom : rdb_bloom_t)
    (filter key : rdb_slice_t) (hlen : 2 ≤ filter.length)
    (hk : 31 ≤ filter.getD (filter.length - 1) 0) :
    bloom_match rdb_hash bloom filter key = 1 := by
  have h1 : ¬ filter.length < 2 := by omega
  have h2 : filter.getD (filter.length - 1) 0 > 30 := by omega
  simp only [bloom_match, h1, h2, if_true, if_false]

theorem bloom_match_reserved_k_witness :
    2 ≤ ([0, 0, 31] : rdb_slice_t).length ∧
    31 ≤ ([0, 0, 31] : rdb_slice_t).getD (([0, 0, 31] : rdb_slice_t).length - 1) 0 ∧
    bloom_match (fun data seed => data.sum + seed) bloom_default [0, 0, 31] [1, 2, 3] = 1 :=
  ⟨by decide, by decide, bloom_match_reserved_k _ _ _ _ (by decide) (by decide)⟩

/-! ## Name formatting -/

theorem strlen_append_zero (N rest : List Nat) (hN : ∀ c ∈ N, c ≠ 0) :
    strlen (N ++ 0 :: rest) = N.length := by
  induction N with
  | nil => simp [strlen]
  | cons c cs ih =>
    have hc : c ≠ 0 := hN c (by simp)
    have := ih (fun d hd => hN d (by simp [hd]))
    simp [strlen, hc, this]

theorem rdb_bloom_name_eq (N : List Nat) (hN : ∀ c ∈ N, c ≠ 0) (hL : N.length + 8 < 2 ^ 64)
    (bloom : rdb_bloom_t) (hname : bloom.name = N ++ [0]) (buf : List Nat) (size : Nat) :
    rdb_bloom_name buf size bloom =
      if size < 7 + N.length + 1 then (0, buf)
      else (1, memcpy (memcpy buf 0 (c_string "filter.") 7) 7 (N ++ [0]) (N.length + 1)) := by
  have hs : strlen (N ++ [0]) = N.length := strlen_append_zero N [] hN
  have hm : (7 + N.length + 1) % 2 ^ 64 = 7 + N.length + 1 := Nat.mod_eq_of_lt (by omega)
  simp only [rdb_bloom_name, hname, hs, hm, gt_iff_lt]

/-- C9. For a policy whose name is a C string of `L` non-zero bytes (with `7 + L + 1`
representable in `size_t`) and every buffer size `S`, `rdb_bloom_name` returns 1 iff
`S ≥ 7 + L + 1` and 0 otherwise, and when it returns 0 the buffer is unchanged; for the
built-in name (`L = 27`) it returns 1 iff `S ≥ 35`. -/
theorem rdb_bloom_name_succeeds_iff (N : List Nat) (hN : ∀ c ∈ N, c ≠ 0)
    (hL : N.length + 8 < 2 ^ 64) (bloom : rdb_bloom_t) (hname : bloom.name = N ++ [0])
    (buf : List Nat) (size : Nat) :
    ((rdb_bloom_name buf size bloom).1 = 1 ↔ 7 + N.length + 1 ≤ size) ∧
    ((rdb_bloom_name buf size bloom).1 = 0 ↔ ¬ (7 + N.length + 1 ≤ size)) ∧
    ((rdb_bloom_name buf size bloom).1 = 0 → (rdb_bloom_name buf size bloom).2 = buf) ∧
    ((rdb_bloom_name buf size bloom_default).1 = 1 ↔ 35 ≤ size) ∧
    ((rdb_bloom_name buf size bloom_default).1 = 0 →
      (rdb_bloom_name buf size bloom_default).2 = buf) := by
  have hdef : strlen bloom_default.name = 27 := by decide
  rw [rdb_bloom_name_eq N hN hL bloom hname]
  refine ⟨?_, ?_, ?_, ?_, ?_⟩
  · split <;> simp <;> omega
  · split <;> simp <;> omega
  · split <;> simp
  · simp only [rdb_bloom_name, hdef]
    split <;> simp <;> omega
  · simp only [rdb_bloom_name, hdef]
    split <;> simp

theorem rdb_bloom_name_succeeds_iff_witness :
    (∀ c ∈ ([97, 98, 99] : List Nat), c ≠ 0) ∧
    ([97, 98, 99] : List Nat).length + 8 < 2 ^ 64 ∧
    ((rdb_bloom_name (List.replicate 12 7) 11 (rdb_bloom_t.mk [97, 98, 99, 0]
        rdb_fn_t.bloom_build rdb_fn_t.bloom_match 10 6 none)).1 = 1 ↔
      7 + ([97, 98, 99] : List Nat).length + 1 ≤ 11) :=
  ⟨by decide, by decide,
    (rdb_bloom_name_succeeds_iff [97, 98, 99] (by decide) (by decide)
      (rdb_bloom_t.mk [97, 98, 99, 0] rdb_fn_t.bloom_build rdb_fn_t.bloom_match 10 6 none)
      (by decide) (List.replicate 12 7) 11).1⟩

/-- C10. Whenever `rdb_bloom_name` returns 1 for a policy whose name is the C string `N`
of length `L`, written into a buffer that holds at least `size` bytes, the first
`7 + L + 1` bytes of the buffer are the ASCII bytes of `filter.`, then the bytes of `N`,
then one zero byte, and the bytes from index `7 + L + 1` on are unchanged. -/
theorem rdb_bloom_name_content (N : List Nat) (hN : ∀ c ∈ N, c ≠ 0)
    (hL : N.length + 8 < 2 ^ 64) (bloom : rdb_bloom_t) (hname : bloom.name = N ++ [0])
    (buf : List Nat) (size : Nat) (hbuf : size ≤ buf.length)
    (hret : (rdb_bloom_name buf size bloom).1 = 1) :
    (rdb_bloom_name buf size bloom).2.take (7 + N.length + 1) =
      "filter.".toList.map Char.toNat ++ N ++ [0] ∧
    (rdb_bloom_name buf size bloom).2.drop (7 + N.length + 1) =
      buf.drop (7 + N.length + 1) ∧
    (rdb_bloom_name buf size bloom).2.length = buf.length := by
  rw [rdb_bloom_name_eq N hN hL bloom hname] at hret ⊢
  have hsz : ¬ size < 7 + N.length + 1 := by
    intro h
    rw [if_pos h] at hret
    simp at hret
  rw [if_neg hsz]
  have hf : (c_string "filter.").take 7 = "filter.".toList.map Char.toNat := by decide
  have hfl : ("filter.".toList.map Char.toNat).length = 7 := by decide
  generalize "filter.".toList.map Char.toNat = F at hf hfl
  have h1 : (N ++ [0]).take (N.length + 1) = N ++ [0] :=
    List.take_of_length_le (by simp)
  have h2 : 7 + (N.length + 1) = F.length + (N.length + 1) := by omega
  have h3 : 7 + N.length + 1 = (F ++ N ++ [0]).length := by simp; omega
  have e : memcpy (memcpy buf 0 (c_string "filter.") 7) 7 (N ++ [0]) (N.length + 1)
      = (F ++ N ++ [0]) ++ buf.drop (7 + N.length + 1) := by
    simp only [memcpy, hf, h1, List.take_zero, List.nil_append, Nat.zero_add]
    rw [List.take_left' hfl, h2, List.drop_append, List.drop_drop]
    have h4 : 7 + (N.length + 1) = 7 + N.length + 1 := by omega
    simp only [List.append_assoc, h4]
  simp only [e]
  refine ⟨?_, ?_, ?_⟩
  · rw [h3]; exact List.take_left' rfl
  · rw [h3, List.drop_left' rfl, ← h3]
  · simp only [List.length_append, List.length_drop, ← h3]
    omega

theorem rdb_bloom_name_content_witness :
    (∀ c ∈ ([97, 98, 99] : List Nat), c ≠ 0) ∧
    ([97, 98, 99] : List Nat).length + 8 < 2 ^ 64 ∧
    11 ≤ (List.replicate 12 7).length ∧
    (rdb_bloom_name (List.replicate 12 7) 11 (rdb_bloom_t.mk [97, 98, 99, 0]
        rdb_fn_t.bloom_build rdb_fn_t.bloom_match 10 6 none)).1 = 1 ∧
    (rdb_bloom_name (List.replicate 12 7) 11 (rdb_bloom_t.mk [97, 98, 99, 0]
        rdb_fn_t.bloom_build rdb_fn_t.bloom_match 10 6 none)).2.take
        (7 + ([97, 98, 99] : List Nat).length + 1) =
      "filter.".toList.map Char.toNat ++ [97, 98, 99] ++ [0] :=
  ⟨by decide, by decide, by decide, by decide,
    (rdb_bloom_name_content [97, 98, 99] (by decide) (by decide)
      (rdb_bloom_t.mk [97, 98, 99, 0] rdb_fn_t.bloom_build rdb_fn_t.bloom_match 10 6 none)
      (by decide) (List.replicate 12 7) 11 (by decide) (by decide)).1⟩

/-! ## The loops of `bloom_add` and `bloom_match` -/

theorem probe_positions_lt (bits delta : Nat) (hb : 0 < bits) (n hash p : Nat)
    (hp : p ∈ probe_positions bits delta n hash) : p < bits := by
  induction n generalizing hash with
  | zero => simp [probe_positions] at hp
  | succ n ih =>
    simp only [probe_positions, List.mem_cons] at hp
    rcases hp with rfl | hp
    · exact lt_of_le_of_lt (Nat.mod_le _ _) (Nat.mod_lt _ hb)
    · exact ih _ hp

theorem bit_at_set_byte (data : List Nat) (pos p : Nat) (h : pos / 8 < data.length) :
    bit_at (data.set (pos / 8) ((data.getD (pos / 8) 0 ||| (1 <<< (pos % 8))) % 256)) p
      = (bit_at data p || decide (pos = p)) := by
  unfold bit_at
  by_cases hq : pos / 8 = p / 8
  · have hp8 : p % 8 < 8 := Nat.mod_lt _ (by norm_num)
    have e : (data.set (pos / 8) ((data.getD (pos / 8) 0 ||| (1 <<< (pos % 8))) % 256)).getD
        (p / 8) 0 = (data.getD (p / 8) 0 ||| (1 <<< (pos % 8))) % 256 := by
      rw [← hq]
      simp [List.getD_eq_getElem?_getD, List.getElem?_set, h]
    rw [e, testBit_or_bit_mod _ _ _ hp8]
    congr 1
    have : (pos % 8 = p % 8) ↔ (pos = p) := by omega
    simp [this]
  · have e : (data.set (pos / 8) ((data.getD (pos / 8) 0 ||| (1 <<< (pos % 8))) % 256)).getD
        (p / 8) 0 = data.getD (p / 8) 0 := by
      simp [List.getD_eq_getElem?_getD, List.getElem?_set, hq]
    have hne : ¬ pos = p := fun h' => hq (by rw [h'])
    rw [e]
    simp [hne]

theorem or_decide_mem_cons (b : Bool) (pos p : Nat) (rest : List Nat) :
    (b || decide (pos = p) || decide (p ∈ rest)) = (b || decide (p ∈ pos :: rest)) := by
  by_cases h1 : pos = p
  · subst h1
    simp
  · have h2 : ¬ p = pos := fun h => h1 h.symm
    simp [h1, h2]

theorem bloom_add_loop_length (bits delta : Nat) (n hash : Nat) (data : List Nat) :
    (bloom_add_loop bits delta n hash data).length = data.length := by
  induction n generalizing hash data with
  | zero => rfl
  | succ n ih => simp [bloom_add_loop, ih]

theorem bit_at_bloom_add_loop (bits delta : Nat) (hb : 0 < bits) (n hash : Nat)
    (data : List Nat) (hlen : bits ≤ 8 * data.length) (p : Nat) :
    bit_at (bloom_add_loop bits delta n hash data) p
      = (bit_at data p || decide (p ∈ probe_positions bits delta n hash)) := by
  induction n generalizing hash data with
  | zero => simp [bloom_add_loop, probe_positions]
  | succ n ih =>
    have hpos : hash % bits % 2 ^ 32 < bits :=
      lt_of_le_of_lt (Nat.mod_le _ _) (Nat.mod_lt _ hb)
    have hidx : hash % bits % 2 ^ 32 / 8 < data.length := by omega
    simp only [bloom_add_loop, probe_positions]
    rw [ih _ _ (by rw [List.length_set]; exact hlen), bit_at_set_byte _ _ _ hidx]
    exact or_decide_mem_cons _ _ _ _

theorem bloom_match_loop_eq (data : List Nat) (bits delta : Nat) (n hash : Nat) :
    bloom_match_loop data bits delta n hash
      = if ∀ p ∈ probe_positions bits delta n hash, bit_at data p = true then 1 else 0 := by
  induction n generalizing hash with
  | zero => simp [bloom_match_loop, probe_positions]
  | succ n ih =>
    simp only [bloom_match_loop, probe_positions, List.forall_mem_cons]
    have hbit : (data.getD (hash % bits % 2 ^ 32 / 8) 0 &&& 1 <<< (hash % bits % 2 ^ 32 % 8) = 0)
        ↔ ¬ bit_at data (hash % bits % 2 ^ 32) = true := by
      rw [and_one_shiftLeft_eq_zero]
      unfold bit_at
      simp
    generalize hash % bits % 2 ^ 32 = pos at hbit ⊢
    by_cases h : bit_at data pos = true
    · rw [if_neg (by rw [hbit]; exact not_not.mpr h), ih]
      simp only [h, true_and]
    · rw [if_pos (hbit.mpr h), if_neg (fun hh => h hh.1)]

/-! ## `bloom_size` and `bloom_build` -/

theorem bloom_size_lt (bloom : rdb_bloom_t) (n : Nat) : bloom_size bloom n < 2 ^ 61 := by
  unfold bloom_size
  simp only
  generalize (if n * bloom.bits_per_key % 2 ^ 64 < 64 then 64
    else n * bloom.bits_per_key % 2 ^ 64) = bits
  omega

theorem bloom_size_ge (bloom : rdb_bloom_t) (n : Nat)
    (hsz : n * bloom.bits_per_key % 2 ^ 64 + 7 < 2 ^ 64) : 8 ≤ bloom_size bloom n := by
  unfold bloom_size
  simp only
  split
  · norm_num
  · rw [Nat.mod_eq_of_lt hsz]
    omega

/-- The byte count of `bloom_size` is zero exactly when adding 7 to the bit count wraps
around `2 ^ 64`; otherwise it is at least 8. -/
theorem bloom_size_ne_zero_iff (bloom : rdb_bloom_t) (n : Nat) :
    bloom_size bloom n ≠ 0 ↔ n * bloom.bits_per_key % 2 ^ 64 + 7 < 2 ^ 64 := by
  constructor
  · intro h
    by_contra hc
    apply h
    unfold bloom_size
    simp only
    have hlt : n * bloom.bits_per_key % 2 ^ 64 < 2 ^ 64 := Nat.mod_lt _ (by positivity)
    rw [if_neg (by omega)]
    omega
  · intro h
    have := bloom_size_ge bloom n h
    omega

/-- An instance of the wrap-around: `10712350335 * 1722007169 = 2 ^ 64 - 1`, adding 7
wraps to 6, and the byte count is 0. -/
theorem bloom_size_wraps :
    bloom_size (rdb_bloom_init bloom_default 1722007169) 10712350335 = 0 := by
  decide

theorem bloom_size_eq (bloom : rdb_bloom_t) (n : Nat)
    (hsz : n * bloom.bits_per_key + 7 < 2 ^ 64) :
    bloom_size bloom n = (max 64 (n * bloom.bits_per_key) + 7) / 8 := by
  unfold bloom_size
  have h1 : n * bloom.bits_per_key % 2 ^ 64 = n * bloom.bits_per_key :=
    Nat.mod_eq_of_lt (by omega)
  simp only [h1]
  split
  · rw [max_eq_left (by omega)]
    norm_num
  · rw [max_eq_right (by omega), Nat.mod_eq_of_lt hsz]

theorem bloom_add_length (rdb_hash : List Nat → Nat → Nat) (bloom : rdb_bloom_t)
    (data : List Nat) (key : rdb_slice_t) (bits : Nat) :
    (bloom_add rdb_hash bloom data key bits).length = data.length := by
  simp [bloom_add, bloom_add_loop_length]

theorem bit_at_bloom_add (rdb_hash : List Nat → Nat → Nat) (bloom : rdb_bloom_t)
    (data : List Nat) (key : rdb_slice_t) (bits : Nat) (hb : 0 < bits)
    (hlen : bits ≤ 8 * data.length) (p : Nat) :
    bit_at (bloom_add rdb_hash bloom data key bits) p
      = (bit_at data p || decide (p ∈ key_probes rdb_hash bloom.k bits key)) := by
  simp only [bloom_add, key_probes]
  exact bit_at_bloom_add_loop _ _ hb _ _ _ hlen p

theorem foldl_bloom_add_length (rdb_hash : List Nat → Nat → Nat) (bloom : rdb_bloom_t)
    (bits : Nat) (keys : List rdb_slice_t) (data : List Nat) :
    (keys.foldl (fun data key => bloom_add rdb_hash bloom data key bits) data).length
      = data.length := by
  induction keys generalizing data with
  | nil => rfl
  | cons key keys ih => simp [List.foldl_cons, ih, bloom_add_length]

theorem bit_at_foldl_bloom_add (rdb_hash : List Nat → Nat → Nat) (bloom : rdb_bloom_t)
    (bits : Nat) (hb : 0 < bits) (keys : List rdb_slice_t) (data : List Nat)
    (hlen : bits ≤ 8 * data.length) (p : Nat) :
    bit_at (keys.foldl (fun data key => bloom_add rdb_hash bloom data key bits) data) p
      = (bit_at data p ||
          keys.any (fun key => decide (p ∈ key_probes rdb_hash bloom.k bits key))) := by
  induction keys generalizing data with
  | nil => simp
  | cons key keys ih =>
    rw [List.foldl_cons, ih _ (by rw [bloom_add_length]; exact hlen),
      bit_at_bloom_add _ _ _ _ _ hb hlen, List.any_cons, Bool.or_assoc]

theorem bloom_build_eq (rdb_hash : List Nat → Nat → Nat) (bloom : rdb_bloom_t)
    (dst : rdb_buffer_t) (keys : List rdb_slice_t) :
    bloom_build rdb_hash bloom dst keys = dst ++
      (keys.foldl (fun data key =>
          bloom_add rdb_hash bloom data key (bloom_size bloom keys.length * 8))
        (List.replicate (bloom_size bloom keys.length + 1) 0)).set
        (bloom_size bloom keys.length) (bloom.k % 256) := by
  have h := bloom_size_lt bloom keys.length
  have h1 : (bloom_size bloom keys.length + 1) % 2 ^ 64 = bloom_size bloom keys.length + 1 :=
    Nat.mod_eq_of_lt (by omega)
  have h2 : bloom_size bloom keys.length * 8 % 2 ^ 64 = bloom_size bloom keys.length * 8 :=
    Nat.mod_eq_of_lt (by omega)
  simp only [bloom_build, rdb_buffer_pad, h1, h2, List.drop_left, List.take_left]

theorem bit_at_set_other (data : List Nat) (i v p : Nat) (hp : p / 8 ≠ i) :
    bit_at (data.set i v) p = bit_at data p := by
  unfold bit_at
  have hne : ¬ i = p / 8 := fun h => hp h.symm
  simp [List.getD_eq_getElem?_getD, List.getElem?_set, hne]

theorem bit_at_replicate_zero (m p : Nat) : bit_at (List.replicate m 0) p = false := by
  unfold bit_at
  simp only [List.getD_eq_getElem?_getD, List.getElem?_replicate]
  split <;> simp

theorem set_last (l : List Nat) (m v : Nat) (hl : l.length = m + 1) :
    l.set m v = l.take m ++ [v] := by
  rw [List.set_eq_take_append_cons_drop, if_pos (by omega)]
  have : l.drop (m + 1) = [] := List.drop_of_length_le (by omega)
  rw [this]

/-- The blob `bloom_build` appends matches every key it was built from, whenever the
byte count of `bloom_size` is not zero. -/
theorem bloom_match_build (rdb_hash : List Nat → Nat → Nat) (p q : rdb_bloom_t)
    (hk : p.k ≤ 30) (K : List rdb_slice_t) (key : rdb_slice_t) (hkey : key ∈ K)
    (hdef : bloom_size p K.length ≠ 0) :
    bloom_match rdb_hash q (bloom_build rdb_hash p [] K) key = 1 := by
  have hge := bloom_size_ge p K.length ((bloom_size_ne_zero_iff p K.length).mp hdef)
  have hlt := bloom_size_lt p K.length
  rw [bloom_build_eq, List.nil_append]
  generalize hbytes : bloom_size p K.length = bytes at hge hlt
  set F := K.foldl (fun data key => bloom_add rdb_hash p data key (bytes * 8))
    (List.replicate (bytes + 1) 0) with hF
  have hFlen : F.length = bytes + 1 := by
    rw [hF, foldl_bloom_add_length, List.length_replicate]
  have hBlen : (F.set bytes (p.k % 256)).length = bytes + 1 := by
    rw [List.length_set, hFlen]
  have hkmod : p.k % 256 = p.k := Nat.mod_eq_of_lt (by omega)
  have hlast : (F.set bytes (p.k % 256)).getD (bytes + 1 - 1) 0 = p.k := by
    simp [List.getD_eq_getElem?_getD, List.getElem?_set, hFlen, hkmod]
  have hbits : (bytes + 1 - 1) * 8 % 2 ^ 64 = bytes * 8 := by
    rw [Nat.add_sub_cancel]
    exact Nat.mod_eq_of_lt (by omega)
  have h1 : ¬ bytes + 1 < 2 := by omega
  have h2 : ¬ p.k > 30 := by omega
  simp only [bloom_match, hBlen, h1, hlast, hbits, h2, if_false]
  rw [bloom_match_loop_eq, if_pos]
  intro pos hpos
  have hpos' : pos ∈ key_probes rdb_hash p.k (bytes * 8) key := hpos
  have hlt8 : pos < bytes * 8 := probe_positions_lt _ _ (by omega) _ _ _ hpos
  rw [bit_at_set_other _ _ _ _ (by omega), hF,
    bit_at_foldl_bloom_add _ _ _ (by omega) _ _ (by rw [List.length_replicate]; omega),
    bit_at_replicate_zero, Bool.false_or, List.any_eq_true]
  exact ⟨key, hkey, by simpa using hpos'⟩

theorem ceil_div_eight (x : Nat) : ⌈((x : Nat) : ℚ) / 8⌉₊ = (x + 7) / 8 := by
  rcases Nat.eq_zero_or_pos x with h0 | hpos
  · subst h0; simp
  · have hm : (x + 7) / 8 ≠ 0 := by omega
    rw [Nat.ceil_eq_iff hm]
    have h1 : 8 * ((x + 7) / 8 - 1) < x := by omega
    have h2 : x ≤ 8 * ((x + 7) / 8) := by omega
    constructor
    · rw [lt_div_iff₀ (by norm_num)]
      have : ((8 * ((x + 7) / 8 - 1) : Nat) : ℚ) < (x : ℚ) := by exact_mod_cast h1
      push_cast at this ⊢
      linarith
    · rw [div_le_iff₀ (by norm_num)]
      have : ((x : Nat) : ℚ) ≤ ((8 * ((x + 7) / 8) : Nat) : ℚ) := by exact_mod_cast h2
      push_cast at this ⊢
      linarith

/-! ## The claims on build and match -/

/-- C1. No false negatives: for every policy initialised by `rdb_bloom_init` (any
`bits_per_key ≥ 0`, in particular `≥ 1`), every list of keys `K`, duplicates allowed, and
every key in `K`, `bloom_match` returns 1 on the blob `bloom_build` appends to an empty
buffer for `K`, for an arbitrary hash function. The list may have any length for which
`bloom_build` is defined, that is, for which the byte count of `bloom_size`, whose
eightfold is the modulus of `hash % bits` in `bloom_add`, is not zero. -/
theorem bloom_no_false_negatives (rdb_hash : List Nat → Nat → Nat) (b0 : rdb_bloom_t)
    (bits_per_key : Nat) (K : List rdb_slice_t) (key : rdb_slice_t) (hkey : key ∈ K)
    (hdef : bloom_size (rdb_bloom_init b0 bits_per_key) K.length ≠ 0) :
    bloom_match rdb_hash (rdb_bloom_init b0 bits_per_key)
      (bloom_build rdb_hash (rdb_bloom_init b0 bits_per_key) [] K) key = 1 :=
  bloom_match_build rdb_hash _ _ (rdb_bloom_init_k_bounds b0 bits_per_key).2 K key hkey hdef

theorem bloom_no_false_negatives_witness :
    ([3] : rdb_slice_t) ∈ ([[1, 2], [3], [1, 2]] : List rdb_slice_t) ∧
    bloom_size (rdb_bloom_init bloom_default 10)
      ([[1, 2], [3], [1, 2]] : List rdb_slice_t).length ≠ 0 ∧
    bloom_match (fun data seed => data.sum * 2654435761 + seed) (rdb_bloom_init bloom_default 10)
      (bloom_build (fun data seed => data.sum * 2654435761 + seed)
        (rdb_bloom_init bloom_default 10) [] [[1, 2], [3], [1, 2]]) [3] = 1 :=
  ⟨by decide, by decide,
    bloom_no_false_negatives _ bloom_default 10 [[1, 2], [3], [1, 2]] [3] (by decide)
      (by decide)⟩

/-- C2. Cross-parameter round trip: for two policies initialised by `rdb_bloom_init` with
any `bits_per_key` values, every key list `K` (of a length for which `bloom_build` is
defined, as in C1) and every key in `K`, the second policy matches the key on the blob
the first built; and the result of `bloom_match` is the same for every policy argument,
on every blob and key. -/
theorem bloom_match_cross_policy (rdb_hash : List Nat → Nat → Nat) (b0 b1 : rdb_bloom_t)
    (bits_per_key_p bits_per_key_q : Nat) (K : List rdb_slice_t) (key : rdb_slice_t)
    (hkey : key ∈ K) (hdef : bloom_size (rdb_bloom_init b0 bits_per_key_p) K.length ≠ 0) :
    bloom_match rdb_hash (rdb_bloom_init b1 bits_per_key_q)
      (bloom_build rdb_hash (rdb_bloom_init b0 bits_per_key_p) [] K) key = 1 ∧
    ∀ (p q : rdb_bloom_t) (filter key' : rdb_slice_t),
      bloom_match rdb_hash p filter key' = bloom_match rdb_hash q filter key' :=
  ⟨bloom_match_build rdb_hash _ _ (rdb_bloom_init_k_bounds b0 bits_per_key_p).2 K key hkey hdef,
    fun _ _ _ _ => rfl⟩

theorem bloom_match_cross_policy_witness :
    ([3] : rdb_slice_t) ∈ ([[1, 2], [3]] : List rdb_slice_t) ∧
    bloom_size (rdb_bloom_init bloom_default 10) ([[1, 2], [3]] : List rdb_slice_t).length ≠ 0 ∧
    bloom_match (fun data seed => data.sum * 2654435761 + seed) (rdb_bloom_init bloom_default 3)
      (bloom_build (fun data seed => data.sum * 2654435761 + seed)
        (rdb_bloom_init bloom_default 10) [] [[1, 2], [3]]) [3] = 1 :=
  ⟨by decide, by decide,
    (bloom_match_cross_policy _ bloom_default bloom_default 10 3 [[1, 2], [3]] [3] (by decide)
      (by decide)).1⟩

/-- C3. Encoded layout: for every policy with `k` in `[1, 30]` and every key list of
length `n` with `n * bits_per_key` not overflowing a `size_t` (and for which
`bloom_build` is defined: the byte count of `bloom_size` is not zero), `bloom_build`
appends exactly `ceil(max(64, n * bits_per_key) / 8) + 1` bytes to the destination: the
bit-array bytes followed by one last byte equal to the policy's `k`. -/
theorem bloom_build_layout (rdb_hash : List Nat → Nat → Nat) (bloom : rdb_bloom_t)
    (hk : 1 ≤ bloom.k ∧ bloom.k ≤ 30) (dst : rdb_buffer_t) (keys : List rdb_slice_t)
    (hmul : keys.length * bloom.bits_per_key < 2 ^ 64)
    (hdef : bloom_size bloom keys.length ≠ 0) :
    ∃ bit_array : List Nat,
      bloom_build rdb_hash bloom dst keys = dst ++ (bit_array ++ [bloom.k]) ∧
      bit_array.length = ⌈((max 64 (keys.length * bloom.bits_per_key) : Nat) : ℚ) / 8⌉₊ ∧
      (bloom_build rdb_hash bloom dst keys).length =
        dst.length + (⌈((max 64 (keys.length * bloom.bits_per_key) : Nat) : ℚ) / 8⌉₊ + 1) := by
  have hsz : keys.length * bloom.bits_per_key + 7 < 2 ^ 64 := by
    have := (bloom_size_ne_zero_iff bloom keys.length).mp hdef
    rwa [Nat.mod_eq_of_lt hmul] at this
  rw [ceil_div_eight, ← bloom_size_eq bloom keys.length hsz, bloom_build_eq]
  have hFlen : (keys.foldl (fun data key =>
      bloom_add rdb_hash bloom data key (bloom_size bloom keys.length * 8))
      (List.replicate (bloom_size bloom keys.length + 1) 0)).length
      = bloom_size bloom keys.length + 1 := by
    rw [foldl_bloom_add_length, List.length_replicate]
  rw [set_last _ _ _ hFlen, Nat.mod_eq_of_lt (by omega : bloom.k < 256)]
  refine ⟨_, rfl, ?_, ?_⟩
  · rw [List.length_take, hFlen]; omega
  · simp only [List.length_append, List.length_take, hFlen, List.length_singleton]; omega

theorem bloom_build_layout_witness :
    (1 ≤ bloom_default.k ∧ bloom_default.k ≤ 30) ∧
    ([[1, 2], [3]] : List rdb_slice_t).length * bloom_default.bits_per_key < 2 ^ 64 ∧
    bloom_size bloom_default ([[1, 2], [3]] : List rdb_slice_t).length ≠ 0 ∧
    ∃ bit_array : List Nat,
      bloom_build (fun data seed => data.sum + seed) bloom_default [9, 9] [[1, 2], [3]]
        = [9, 9] ++ (bit_array ++ [bloom_default.k]) ∧
      bit_array.length = ⌈((max 64 (([[1, 2], [3]] : List rdb_slice_t).length *
        bloom_default.bits_per_key) : Nat) : ℚ) / 8⌉₊ ∧
      (bloom_build (fun data seed => data.sum + seed) bloom_default [9, 9] [[1, 2], [3]]).length
        = ([9, 9] : rdb_buffer_t).length + (⌈((max 64 (([[1, 2], [3]] : List rdb_slice_t).length *
        bloom_default.bits_per_key) : Nat) : ℚ) / 8⌉₊ + 1) :=
  ⟨by decide, by decide, by decide,
    bloom_build_layout _ bloom_default (by decide) [9, 9] [[1, 2], [3]] (by decide) (by decide)⟩

/-- C4. Empty build: for every policy initialised by `rdb_bloom_init` (any
`bits_per_key ≥ 0`), `bloom_build` on an empty key list appends exactly 9 bytes, eight
zero bytes followed by `k`, and `bloom_match` returns 0 on that blob for every key, every
policy argument and every hash function. -/
theorem bloom_build_empty (rdb_hash : List Nat → Nat → Nat) (b0 : rdb_bloom_t)
    (bits_per_key : Nat) (dst : rdb_buffer_t) :
    bloom_build rdb_hash (rdb_bloom_init b0 bits_per_key) dst []
      = dst ++ ([0, 0, 0, 0, 0, 0, 0, 0] ++ [(rdb_bloom_init b0 bits_per_key).k]) ∧
    ∀ (q : rdb_bloom_t) (key : rdb_slice_t),
      bloom_match rdb_hash q ([0, 0, 0, 0, 0, 0, 0, 0] ++ [(rdb_bloom_init b0 bits_per_key).k])
        key = 0 := by
  obtain ⟨hk1, hk30⟩ := rdb_bloom_init_k_bounds b0 bits_per_key
  generalize rdb_bloom_init b0 bits_per_key = p at hk1 hk30
  have hsize : bloom_size p 0 = 8 := by simp [bloom_size]
  constructor
  · rw [bloom_build_eq]
    simp only [List.length_nil, hsize, List.foldl_nil]
    rw [Nat.mod_eq_of_lt (by omega : p.k < 256)]
    rfl
  · intro q key
    have h2 : ¬ p.k > 30 := by omega
    have hlen : ([0, 0, 0, 0, 0, 0, 0, 0] ++ [p.k]).length = 9 := rfl
    have hget : ([0, 0, 0, 0, 0, 0, 0, 0] ++ [p.k]).getD (9 - 1) 0 = p.k := rfl
    have h9 : ¬ 9 < 2 := by omega
    have hbits : (9 - 1) * 8 % 2 ^ 64 = 64 := by norm_num
    have hzero : ∀ v i : Nat, i < 8 → ([0, 0, 0, 0, 0, 0, 0, 0] ++ [v]).getD i 0 = 0 := by
      intro v i hi
      interval_cases i <;> rfl
    simp only [bloom_match, hlen, hget, h2, h9, hbits, if_false]
    rw [bloom_match_loop_eq, if_neg]
    intro hall
    obtain ⟨m, hm⟩ : ∃ m, p.k = m + 1 := ⟨p.k - 1, by omega⟩
    rw [hm] at hall
    have hfirst := hall _ (List.mem_cons_self _ _)
    have hlt : bloom_hash rdb_hash key % 64 % 2 ^ 32 < 64 :=
      lt_of_le_of_lt (Nat.mod_le _ _) (Nat.mod_lt _ (by norm_num))
    have hidx : bloom_hash rdb_hash key % 64 % 2 ^ 32 / 8 < 8 := by omega
    unfold bit_at at hfirst
    rw [hzero _ _ hidx] at hfirst
    simp at hfirst

/-! ## Allocation -/

/-- C11. Fail-fast allocation: whatever the system allocator returns, `rdb_malloc` and
`rdb_realloc` either return the non-null block it returned or abort, and never return
`NULL`; `rdb_free` aborts on a null handle and on a non-null handle returns after
releasing it with `free`. -/
theorem rdb_alloc_fail_fast {H : Type} (malloc : Nat → pointer)
    (realloc : pointer → Nat → pointer) (free : pointer → H → H) (ptr : pointer)
    (size : Nat) (heap : H) :
    rdb_malloc malloc size ≠ outcome.returned none ∧
    (rdb_malloc malloc size = outcome.aborted ↔ malloc size = none) ∧
    (∀ b, malloc size = some b → rdb_malloc malloc size = outcome.returned (some b)) ∧
    rdb_realloc realloc ptr size ≠ outcome.returned none ∧
    (rdb_realloc realloc ptr size = outcome.aborted ↔ realloc ptr size = none) ∧
    (∀ b, realloc ptr size = some b →
      rdb_realloc realloc ptr size = outcome.returned (some b)) ∧
    rdb_free free none heap = outcome.aborted ∧
    (∀ b, rdb_free free (some b) heap = outcome.returned (free (some b) heap)) := by
  refine ⟨?_, ?_, ?_, ?_, ?_, ?_, ?_, ?_⟩
  · unfold rdb_malloc
    cases h : malloc size <;> simp
  · unfold rdb_malloc
    cases h : malloc size <;> simp
  · intro b hb
    simp [rdb_malloc, hb]
  · unfold rdb_realloc
    cases h : realloc ptr size <;> simp
  · unfold rdb_realloc
    cases h : realloc ptr size <;> simp
  · intro b hb
    simp [rdb_realloc, hb]
  · simp [rdb_free]
  · intro b
    simp [rdb_free]

/-! ## The default policy -/

/-- C19. `rdb_bloom_init(bloom, 10)` produces exactly the fields of the static
`bloom_default`: the name `leveldb.BuiltinBloomFilter2`, the same build and match
functions, `bits_per_key = 10` and `k = 6`, the truncation of `10 * 0.69`; and for every
`bits_per_key` it stores that same name. -/
theorem rdb_bloom_init_ten_eq_default (b0 : rdb_bloom_t) :
    rdb_bloom_init b0 10 = bloom_default ∧
    (rdb_bloom_init b0 10).name = c_string "leveldb.BuiltinBloomFilter2" ∧
    (rdb_bloom_init b0 10).build = bloom_default.build ∧
    (rdb_bloom_init b0 10).match_ = bloom_default.match_ ∧
    (rdb_bloom_init b0 10).bits_per_key = 10 ∧
    (rdb_bloom_init b0 10).k = 6 ∧
    ((6 : Nat) : Int) = ⌊((10 : Nat) : ℚ) * (69 / 100)⌋ ∧
    ∀ bits_per_key : Nat,
      (rdb_bloom_init b0 bits_per_key).name = c_string "leveldb.BuiltinBloomFilter2" := by
  have hk : (rdb_bloom_init b0 10).k = 6 := by rw [rdb_bloom_init_k]; decide
  have hfl : ((6 : Nat) : Int) = ⌊((10 : Nat) : ℚ) * (69 / 100)⌋ := by
    rw [floor_mul_0_69]
  refine ⟨?_, rfl, rfl, rfl, rfl, hk, hfl, fun _ => rfl⟩
  have e : rdb_bloom_init b0 10 = rdb_bloom_t.mk bloom_default.name bloom_default.build
      bloom_default.match_ 10 (rdb_bloom_init b0 10).k none := rfl
  rw [e, hk]
  rfl

/-! ## The rotation -/

theorem bloom_delta_eq_rotate (h : Nat) (hh : h < 2 ^ 32) :
    bloom_delta h = rotate_right_32 h 17 := by
  unfold bloom_delta rotate_right_32
  have h1 : h <<< 15 % 2 ^ 32 = 2 ^ 15 * (h % 2 ^ 17) := by
    rw [Nat.shiftLeft_eq, show (2 : Nat) ^ 32 = 2 ^ 17 * 2 ^ 15 by norm_num,
      Nat.mul_mod_mul_right, Nat.mul_comm]
  have h2 : h / 2 ^ 17 < 2 ^ 15 := by
    rw [Nat.div_lt_iff_lt_mul (by positivity)]
    calc h < 2 ^ 32 := hh
      _ = 2 ^ 15 * 2 ^ 17 := by norm_num
  rw [h1, Nat.shiftRight_eq_div_pow, Nat.lor_comm, ← Nat.mul_add_lt_is_or h2,
    Nat.mod_eq_of_lt hh]
  have : 32 - 17 = 15 := rfl
  rw [this]
  ring

theorem testBit_bloom_delta (h : Nat) (hh : h < 2 ^ 32) (i : Nat) (hi : i < 32) :
    (bloom_delta h).testBit i = h.testBit ((i + 17) % 32) := by
  unfold bloom_delta
  rw [Nat.testBit_lor, Nat.testBit_shiftRight,
    show (2 : Nat) ^ 32 = 2 ^ 32 from rfl, Nat.testBit_mod_two_pow, Nat.testBit_shiftLeft]
  rcases Nat.lt_or_ge i 15 with h15 | h15
  · have e : (i + 17) % 32 = 17 + i := by omega
    have hn : ¬ i ≥ 15 := by omega
    simp [e, hn]
  · have e : (i + 17) % 32 = i - 15 := by omega
    have hbig : h.testBit (17 + i) = false :=
      Nat.testBit_lt_two_pow (lt_of_lt_of_le hh (Nat.pow_le_pow_right (by norm_num) (by omega)))
    simp [e, hbig, hi, h15]

theorem bloom_delta_lt (h : Nat) (hh : h < 2 ^ 32) : bloom_delta h < 2 ^ 32 := by
  rw [bloom_delta_eq_rotate h hh]
  unfold rotate_right_32
  have : 32 - 17 = 15 := rfl
  rw [this, Nat.mod_eq_of_lt hh]
  have h1 : h % 2 ^ 17 < 2 ^ 17 := Nat.mod_lt _ (by positivity)
  have h2 : h / 2 ^ 17 < 2 ^ 15 := by
    rw [Nat.div_lt_iff_lt_mul (by positivity)]
    calc h < 2 ^ 32 := hh
      _ = 2 ^ 15 * 2 ^ 17 := by norm_num
  omega

theorem bloom_hash_lt (rdb_hash : List Nat → Nat → Nat) (key : rdb_slice_t) :
    bloom_hash rdb_hash key < 2 ^ 32 :=
  Nat.mod_lt _ (by positivity)

/-- C20. For every 32-bit value `h`, the `delta` of `bloom_add` and `bloom_match`,
`(h >> 17) | (h << 15)` with the left shift truncated to 32 bits, is `h` rotated right by
17 bit positions: it is a 32-bit value whose bit `i` is bit `(i + 17) mod 32` of `h`; and
both functions run their loop with this same `delta` of the key's hash. -/
theorem bloom_delta_is_rotation (h : Nat) (hh : h < 2 ^ 32) :
    bloom_delta h = rotate_right_32 h 17 ∧
    bloom_delta h < 2 ^ 32 ∧
    (∀ i, i < 32 → (bloom_delta h).testBit i = h.testBit ((i + 17) % 32)) ∧
    (∀ (rdb_hash : List Nat → Nat → Nat) (bloom : rdb_bloom_t) (data : List Nat)
        (key : rdb_slice_t) (bits : Nat),
      bloom_add rdb_hash bloom data key bits =
        bloom_add_loop bits (bloom_delta (bloom_hash rdb_hash key)) bloom.k
          (bloom_hash rdb_hash key) data) ∧
    (∀ (rdb_hash : List Nat → Nat → Nat) (bloom : rdb_bloom_t) (filter key : rdb_slice_t),
      2 ≤ filter.length → filter.getD (filter.length - 1) 0 ≤ 30 →
      bloom_match rdb_hash bloom filter key =
        bloom_match_loop filter ((filter.length - 1) * 8 % 2 ^ 64)
          (bloom_delta (bloom_hash rdb_hash key)) (filter.getD (filter.length - 1) 0)
          (bloom_hash rdb_hash key)) := by
  refine ⟨bloom_delta_eq_rotate h hh, bloom_delta_lt h hh,
    fun i hi => testBit_bloom_delta h hh i hi, fun _ _ _ _ _ => rfl, ?_⟩
  intro rdb_hash bloom filter key hlen hk
  have h1 : ¬ filter.length < 2 := by omega
  have h2 : ¬ filter.getD (filter.length - 1) 0 > 30 := by omega
  simp only [bloom_match, h1, h2, if_false, bloom_delta]

theorem bloom_delta_is_rotation_witness :
    (0x80010003 : Nat) < 2 ^ 32 ∧
    bloom_delta 0x80010003 = rotate_right_32 0x80010003 17 ∧
    bloom_delta 0x80010003 = 0x8001C000 :=
  ⟨by decide, (bloom_delta_is_rotation 0x80010003 (by decide)).1, by decide⟩

/-! ## Probe positions in closed form -/

theorem probe_positions_eq_map (bits delta n hash : Nat) (hh : hash < 2 ^ 32) :
    probe_positions bits delta n hash
      = (List.range n).map (fun i => (hash + i * delta) % 2 ^ 32 % bits) := by
  induction n generalizing hash with
  | zero => rfl
  | succ n ih =>
    rw [probe_positions, ih _ (Nat.mod_lt _ (by positivity)), List.range_succ_eq_map,
      List.map_cons, List.map_map]
    congr 1
    · have h1 : hash % bits % 2 ^ 32 = hash % bits :=
        Nat.mod_eq_of_lt (lt_of_le_of_lt (Nat.mod_le _ _) hh)
      rw [h1, Nat.zero_mul, Nat.add_zero, Nat.mod_eq_of_lt hh]
    · apply List.map_congr_left
      intro i _
      simp only [Function.comp, Nat.succ_eq_add_one]
      congr 1
      rw [Nat.add_mod, Nat.mod_mod, ← Nat.add_mod]
      congr 1
      ring

theorem mem_probe_positions (bits delta n hash p : Nat) (hh : hash < 2 ^ 32) :
    p ∈ probe_positions bits delta n hash ↔
      ∃ i, i < n ∧ p = (hash + i * delta) % 2 ^ 32 % bits := by
  rw [probe_positions_eq_map _ _ _ _ hh, List.mem_map]
  constructor
  · rintro ⟨i, hi, rfl⟩
    exact ⟨i, List.mem_range.mp hi, rfl⟩
  · rintro ⟨i, hi, rfl⟩
    exact ⟨i, List.mem_range.mpr hi, rfl⟩

theorem bit_at_take (data : List Nat) (m p : Nat) (hp : p < m * 8) :
    bit_at (data.take m) p = bit_at data p := by
  unfold bit_at
  have : p / 8 < m := by omega
  simp [List.getD_eq_getElem?_getD, List.getElem?_take, this]

/-- C13. Match characterisation: for a blob of length `len ≥ 2` (its bit count
`(len - 1) * 8` a `size_t`) whose trailing byte `k` is at most 30, and every key,
`bloom_match` returns 1 iff for every `i < k` bit `p_i` of the first `len - 1` bytes is
set, where `p_i = ((hash + i * delta) mod 2 ^ 32) mod ((len - 1) * 8)`, and returns 0 iff
at least one of those bits is unset. -/
theorem bloom_match_iff_all_probes (rdb_hash : List Nat → Nat → Nat) (bloom : rdb_bloom_t)
    (filter key : rdb_slice_t) (hlen : 2 ≤ filter.length)
    (hk : filter.getD (filter.length - 1) 0 ≤ 30)
    (hfit : (filter.length - 1) * 8 < 2 ^ 64) :
    (bloom_match rdb_hash bloom filter key = 1 ↔
      ∀ i, i < filter.getD (filter.length - 1) 0 →
        bit_at (filter.take (filter.length - 1))
          ((bloom_hash rdb_hash key + i * bloom_delta (bloom_hash rdb_hash key)) % 2 ^ 32
            % ((filter.length - 1) * 8)) = true) ∧
    (bloom_match rdb_hash bloom filter key = 0 ↔
      ∃ i, i < filter.getD (filter.length - 1) 0 ∧
        bit_at (filter.take (filter.length - 1))
          ((bloom_hash rdb_hash key + i * bloom_delta (bloom_hash rdb_hash key)) % 2 ^ 32
            % ((filter.length - 1) * 8)) = false) := by
  have h1 : ¬ filter.length < 2 := by omega
  have h2 : ¬ filter.getD (filter.length - 1) 0 > 30 := by omega
  have hpos : 0 < (filter.length - 1) * 8 := by omega
  have hm : bloom_match rdb_hash bloom filter key =
      bloom_match_loop filter ((filter.length - 1) * 8)
        (bloom_delta (bloom_hash rdb_hash key)) (filter.getD (filter.length - 1) 0)
        (bloom_hash rdb_hash key) := by
    simp only [bloom_match, h1, h2, if_false, bloom_delta, Nat.mod_eq_of_lt hfit]
  have hall : (∀ p ∈ probe_positions ((filter.length - 1) * 8)
        (bloom_delta (bloom_hash rdb_hash key)) (filter.getD (filter.length - 1) 0)
        (bloom_hash rdb_hash key), bit_at filter p = true) ↔
      ∀ i, i < filter.getD (filter.length - 1) 0 →
        bit_at (filter.take (filter.length - 1))
          ((bloom_hash rdb_hash key + i * bloom_delta (bloom_hash rdb_hash key)) % 2 ^ 32
            % ((filter.length - 1) * 8)) = true := by
    constructor
    · intro h i hi
      rw [bit_at_take _ _ _ (Nat.mod_lt _ hpos)]
      exact h _ ((mem_probe_positions _ _ _ _ _ (bloom_hash_lt rdb_hash key)).mpr ⟨i, hi, rfl⟩)
    · intro h p hp
      obtain ⟨i, hi, rfl⟩ := (mem_probe_positions _ _ _ _ _ (bloom_hash_lt rdb_hash key)).mp hp
      rw [← bit_at_take _ (filter.length - 1) _ (Nat.mod_lt _ hpos)]
      exact h i hi
  rw [hm, bloom_match_loop_eq]
  constructor
  · rw [← hall]
    split <;> simp_all
  · constructor
    · intro h0
      by_contra hne
      have hall' : ∀ i, i < filter.getD (filter.length - 1) 0 →
          bit_at (filter.take (filter.length - 1))
            ((bloom_hash rdb_hash key + i * bloom_delta (bloom_hash rdb_hash key)) % 2 ^ 32
              % ((filter.length - 1) * 8)) = true := by
        intro i hi
        by_contra hb
        exact hne ⟨i, hi, by simpa using hb⟩
      rw [if_pos (hall.mpr hall')] at h0
      simp at h0
    · rintro ⟨i, hi, hb⟩
      rw [if_neg]
      intro hp
      have := (hall.mp hp) i hi
      rw [hb] at this
      simp at this

theorem bloom_match_iff_all_probes_witness :
    2 ≤ ([255, 255, 2] : rdb_slice_t).length ∧
    ([255, 255, 2] : rdb_slice_t).getD (([255, 255, 2] : rdb_slice_t).length - 1) 0 ≤ 30 ∧
    (([255, 255, 2] : rdb_slice_t).length - 1) * 8 < 2 ^ 64 ∧
    bloom_match (fun data seed => data.sum + seed) bloom_default [255, 255, 2] [1, 2] = 1 :=
  ⟨by decide, by decide, by decide,
    (bloom_match_iff_all_probes (fun data seed => data.sum + seed) bloom_default
      [255, 255, 2] [1, 2] (by decide) (by decide) (by decide)).1.mpr (by decide)⟩

/-! ## The bits `bloom_build` sets -/

theorem running_hash_iterate (delta hash i : Nat) (hh : hash < 2 ^ 32) :
    (fun h => (h + delta) % 2 ^ 32)^[i] hash = (hash + i * delta) % 2 ^ 32 := by
  induction i with
  | zero =>
    rw [Function.iterate_zero, id, Nat.zero_mul, Nat.add_zero, Nat.mod_eq_of_lt hh]
  | succ i ih =>
    rw [Function.iterate_succ_apply', ih, Nat.add_mod, Nat.mod_mod, ← Nat.add_mod]
    congr 1
    ring

theorem getD_bloom_add_loop_of_le (bits delta : Nat) (hb : 0 < bits) (j : Nat)
    (hj : bits ≤ 8 * j) (n hash : Nat) (data : List Nat) :
    (bloom_add_loop bits delta n hash data).getD j 0 = data.getD j 0 := by
  induction n generalizing hash data with
  | zero => rfl
  | succ n ih =>
    have hpos : hash % bits % 2 ^ 32 < bits :=
      lt_of_le_of_lt (Nat.mod_le _ _) (Nat.mod_lt _ hb)
    have hne : ¬ hash % bits % 2 ^ 32 / 8 = j := by omega
    simp only [bloom_add_loop]
    rw [ih]
    generalize hash % bits % 2 ^ 32 = pos at hne
    simp [List.getD_eq_getElem?_getD, List.getElem?_set, hne]

theorem key_probes_mem (rdb_hash : List Nat → Nat → Nat) (k bits : Nat) (key : rdb_slice_t)
    (p : Nat) :
    p ∈ key_probes rdb_hash k bits key ↔
      ∃ i, i < k ∧ p = (bloom_hash rdb_hash key
        + i * bloom_delta (bloom_hash rdb_hash key)) % 2 ^ 32 % bits :=
  mem_probe_positions _ _ _ _ _ (bloom_hash_lt rdb_hash key)

/-- C14. Build sets exactly the probe bits: for every policy and key list `K` for which
`bloom_build` is defined, a bit position `pos` of the bit array (the first `bytes` bytes
of the blob) is set iff there are a key in `K` and an `i < k` such that `pos` is the
32-bit running hash of that key after `i` additions of `delta`, reduced modulo
`8 * bytes`; and `bloom_add` leaves the trailing byte as it was. -/
theorem bloom_build_sets_exactly (rdb_hash : List Nat → Nat → Nat) (bloom : rdb_bloom_t)
    (K : List rdb_slice_t) (hdef : bloom_size bloom K.length ≠ 0) :
    (∀ pos, pos < 8 * bloom_size bloom K.length →
      (bit_at ((bloom_build rdb_hash bloom [] K).take (bloom_size bloom K.length)) pos = true ↔
        ∃ key ∈ K, ∃ i, i < bloom.k ∧
          pos = (fun h => (h + bloom_delta (bloom_hash rdb_hash key)) % 2 ^ 32)^[i]
            (bloom_hash rdb_hash key) % (8 * bloom_size bloom K.length))) ∧
    (∀ (data : List Nat) (key : rdb_slice_t),
      (bloom_add rdb_hash bloom data key (bloom_size bloom K.length * 8)).getD
        (bloom_size bloom K.length) 0 = data.getD (bloom_size bloom K.length) 0) := by
  have hge := bloom_size_ge bloom K.length ((bloom_size_ne_zero_iff bloom K.length).mp hdef)
  generalize hbytes : bloom_size bloom K.length = bytes at hge
  constructor
  · intro pos hpos
    rw [bloom_build_eq, List.nil_append, hbytes, bit_at_take _ _ _ (by omega),
      bit_at_set_other _ _ _ _ (by omega),
      bit_at_foldl_bloom_add _ _ _ (by omega) _ _ (by rw [List.length_replicate]; omega),
      bit_at_replicate_zero, Bool.false_or, List.any_eq_true]
    constructor
    · rintro ⟨key, hkey, hp⟩
      obtain ⟨i, hi, hpi⟩ := (key_probes_mem _ _ _ _ _).mp (by simpa using hp)
      refine ⟨key, hkey, i, hi, ?_⟩
      rw [running_hash_iterate _ _ _ (bloom_hash_lt rdb_hash key), Nat.mul_comm 8 bytes]
      exact hpi
    · rintro ⟨key, hkey, i, hi, hpi⟩
      refine ⟨key, hkey, ?_⟩
      rw [running_hash_iterate _ _ _ (bloom_hash_lt rdb_hash key), Nat.mul_comm 8 bytes] at hpi
      simpa using (key_probes_mem _ _ _ _ _).mpr ⟨i, hi, hpi⟩
  · intro data key
    exact getD_bloom_add_loop_of_le _ _ (by omega) _ (by omega) _ _ _

theorem bloom_build_sets_exactly_witness :
    bloom_size bloom_default ([[1, 2], [3]] : List rdb_slice_t).length ≠ 0 ∧
    (bit_at ((bloom_build (fun data seed => data.sum + seed) bloom_default [] [[1, 2], [3]]).take
        (bloom_size bloom_default ([[1, 2], [3]] : List rdb_slice_t).length)) 7 = true ↔
      ∃ key ∈ ([[1, 2], [3]] : List rdb_slice_t), ∃ i, i < bloom_default.k ∧
        7 = (fun h => (h + bloom_delta (bloom_hash (fun data seed => data.sum + seed) key))
              % 2 ^ 32)^[i] (bloom_hash (fun data seed => data.sum + seed) key)
            % (8 * bloom_size bloom_default ([[1, 2], [3]] : List rdb_slice_t).length)) :=
  ⟨by decide,
    (bloom_build_sets_exactly (fun data seed => data.sum + seed) bloom_default [[1, 2], [3]]
      (by decide)).1 7 (by decide)⟩

/-! ## One modulus for build and match -/

theorem bloom_add_loop_eq_foldl (bits delta n hash : Nat) (data : List Nat) :
    bloom_add_loop bits delta n hash data
      = (probe_positions bits delta n hash).foldl set_bit data := by
  induction n generalizing hash data with
  | zero => rfl
  | succ n ih =>
    rw [bloom_add_loop, probe_positions, List.foldl_cons]
    exact ih _ _

theorem bloom_add_eq_foldl (rdb_hash : List Nat → Nat → Nat) (bloom : rdb_bloom_t)
    (data : List Nat) (key : rdb_slice_t) (bits : Nat) :
    bloom_add rdb_hash bloom data key bits
      = (key_probes rdb_hash bloom.k bits key).foldl set_bit data :=
  bloom_add_loop_eq_foldl _ _ _ _ _

theorem bloom_build_length (rdb_hash : List Nat → Nat → Nat) (bloom : rdb_bloom_t)
    (dst : rdb_buffer_t) (keys : List rdb_slice_t) :
    (bloom_build rdb_hash bloom dst keys).length
      = dst.length + (bloom_size bloom keys.length + 1) := by
  rw [bloom_build_eq, List.length_append, List.length_set, foldl_bloom_add_length,
    List.length_replicate]

theorem bloom_build_last (rdb_hash : List Nat → Nat → Nat) (bloom : rdb_bloom_t)
    (keys : List rdb_slice_t) :
    (bloom_build rdb_hash bloom [] keys).getD (bloom_size bloom keys.length) 0
      = bloom.k % 256 := by
  rw [bloom_build_eq, List.nil_append]
  simp [List.getD_eq_getElem?_getD, List.getElem?_set, foldl_bloom_add_length]

/-- What `bloom_match` computes on the blob of `bloom_build`: its loop runs with the
modulus and the probe count of the build. -/
theorem bloom_match_build_eq (rdb_hash : List Nat → Nat → Nat) (p q : rdb_bloom_t)
    (hk : p.k ≤ 30) (K : List rdb_slice_t) (hdef : bloom_size p K.length ≠ 0)
    (key : rdb_slice_t) :
    bloom_match rdb_hash q (bloom_build rdb_hash p [] K) key
      = bloom_match_loop (bloom_build rdb_hash p [] K) (bloom_size p K.length * 8)
          (bloom_delta (bloom_hash rdb_hash key)) p.k (bloom_hash rdb_hash key) := by
  have hlt := bloom_size_lt p K.length
  have hlen := bloom_build_length rdb_hash p [] K
  have hlast := bloom_build_last rdb_hash p K
  rw [Nat.mod_eq_of_lt (by omega : p.k < 256)] at hlast
  simp only [List.length_nil, Nat.zero_add] at hlen
  have hbits : bloom_size p K.length * 8 % 2 ^ 64 = bloom_size p K.length * 8 :=
    Nat.mod_eq_of_lt (by omega)
  have h1 : ¬ bloom_size p K.length + 1 < 2 := by omega
  have h2 : ¬ p.k > 30 := by omega
  simp only [bloom_match, hlen, Nat.add_sub_cancel, hlast, h1, h2, hbits, if_false, bloom_delta]

/-- C15. Build and match use the same modulus: for a key list of length `n` with
`n * bits_per_key` a `size_t` and `bloom_build` defined, with
`bytes = ceil(max(64, n * bits_per_key) / 8)`, `bloom_build` passes the modulus
`8 * bytes` to `bloom_add`, the blob it produces has length `bytes + 1`, and the modulus
`(len - 1) * 8` that `bloom_match` derives from that length is the same `8 * bytes`; so
for every key both loops walk the same `k` probe positions: `bloom_add` sets them one
after the other and `bloom_match` returns 1 iff all of them are set. -/
theorem bloom_build_match_same_modulus (rdb_hash : List Nat → Nat → Nat)
    (p q : rdb_bloom_t) (hk : p.k ≤ 30) (K : List rdb_slice_t)
    (hmul : K.length * p.bits_per_key < 2 ^ 64) (hdef : bloom_size p K.length ≠ 0) :
    ∃ bytes : Nat,
      bytes = ⌈((max 64 (K.length * p.bits_per_key) : Nat) : ℚ) / 8⌉₊ ∧
      (∀ dst : rdb_buffer_t, bloom_build rdb_hash p dst K = dst ++
        (K.foldl (fun data key => bloom_add rdb_hash p data key (8 * bytes))
          (List.replicate (bytes + 1) 0)).set bytes (p.k % 256)) ∧
      (bloom_build rdb_hash p [] K).length = bytes + 1 ∧
      ((bloom_build rdb_hash p [] K).length - 1) * 8 % 2 ^ 64 = 8 * bytes ∧
      ∀ key : rdb_slice_t,
        (∀ data : List Nat, bloom_add rdb_hash p data key (8 * bytes)
          = (key_probes rdb_hash p.k (8 * bytes) key).foldl set_bit data) ∧
        (bloom_match rdb_hash q (bloom_build rdb_hash p [] K) key = 1 ↔
          ∀ pos ∈ key_probes rdb_hash p.k (8 * bytes) key,
            bit_at (bloom_build rdb_hash p [] K) pos = true) := by
  have hsz : K.length * p.bits_per_key + 7 < 2 ^ 64 := by
    have := (bloom_size_ne_zero_iff p K.length).mp hdef
    rwa [Nat.mod_eq_of_lt hmul] at this
  have hlt := bloom_size_lt p K.length
  refine ⟨bloom_size p K.length, ?_, ?_, ?_, ?_, ?_⟩
  · rw [ceil_div_eight, bloom_size_eq p K.length hsz]
  · intro dst
    rw [bloom_build_eq, Nat.mul_comm 8]
  · rw [bloom_build_length]; simp
  · rw [bloom_build_length]
    simp only [List.length_nil, Nat.zero_add, Nat.add_sub_cancel]
    rw [Nat.mod_eq_of_lt (by omega), Nat.mul_comm]
  · intro key
    refine ⟨fun data => bloom_add_eq_foldl _ _ _ _ _, ?_⟩
    rw [bloom_match_build_eq rdb_hash p q hk K hdef key, bloom_match_loop_eq, Nat.mul_comm 8]
    unfold key_probes bloom_delta
    split <;> simp_all

theorem bloom_build_match_same_modulus_witness :
    bloom_default.k ≤ 30 ∧
    ([[1, 2], [3]] : List rdb_slice_t).length * bloom_default.bits_per_key < 2 ^ 64 ∧
    bloom_size bloom_default ([[1, 2], [3]] : List rdb_slice_t).length ≠ 0 ∧
    ∃ bytes : Nat,
      bytes = ⌈((max 64 (([[1, 2], [3]] : List rdb_slice_t).length *
        bloom_default.bits_per_key) : Nat) : ℚ) / 8⌉₊ ∧
      (bloom_build (fun data seed => data.sum + seed) bloom_default [] [[1, 2], [3]]).length
        = bytes + 1 ∧
      ((bloom_build (fun data seed => data.sum + seed) bloom_default [] [[1, 2], [3]]).length
        - 1) * 8 % 2 ^ 64 = 8 * bytes := by
  obtain ⟨bytes, h1, _, h3, h4, _⟩ :=
    bloom_build_match_same_modulus (fun data seed => data.sum + seed) bloom_default
      bloom_default (by decide) [[1, 2], [3]] (by decide) (by decide)
  exact ⟨by decide, by decide, by decide, bytes, h1, h3, h4⟩

/-! ## No division by zero, no index out of range -/

theorem bloom_add_loop_checked_eq (bits delta limit : Nat) (hb : 0 < bits)
    (hlim : bits ≤ 8 * limit) (n hash : Nat) (data : List Nat) :
    bloom_add_loop_checked bits delta limit n hash data
      = some (bloom_add_loop bits delta n hash data) := by
  induction n generalizing hash data with
  | zero => rfl
  | succ n ih =>
    have hpos : hash % bits % 2 ^ 32 < bits :=
      lt_of_le_of_lt (Nat.mod_le _ _) (Nat.mod_lt _ hb)
    have hidx : hash % bits % 2 ^ 32 / 8 < limit := by omega
    have hne : ¬ bits = 0 := by omega
    simp only [bloom_add_loop_checked, bloom_add_loop, hne, hidx, if_true, if_false]
    exact ih _ _

theorem bloom_match_loop_checked_eq (data : List Nat) (bits delta limit : Nat) (hb : 0 < bits)
    (hlim : bits ≤ 8 * limit) (n hash : Nat) :
    bloom_match_loop_checked data bits delta limit n hash
      = some (bloom_match_loop data bits delta n hash) := by
  induction n generalizing hash with
  | zero => rfl
  | succ n ih =>
    have hpos : hash % bits % 2 ^ 32 < bits :=
      lt_of_le_of_lt (Nat.mod_le _ _) (Nat.mod_lt _ hb)
    have hidx : hash % bits % 2 ^ 32 / 8 < limit := by omega
    have hne : ¬ bits = 0 := by omega
    simp only [bloom_match_loop_checked, bloom_match_loop, hne, hidx, if_true, if_false]
    split
    · rfl
    · exact ih _

theorem key_probes_div_lt (rdb_hash : List Nat → Nat → Nat) (k bits limit : Nat)
    (hb : 0 < bits) (hlim : bits ≤ 8 * limit) (key : rdb_slice_t) (pos : Nat)
    (hpos : pos ∈ key_probes rdb_hash k bits key) : pos / 8 < limit := by
  have := probe_positions_lt _ _ hb _ _ _ hpos
  omega

theorem foldlM_bloom_add_checked (rdb_hash : List Nat → Nat → Nat) (bloom : rdb_bloom_t)
    (bits limit : Nat) (hb : 0 < bits) (hlim : bits ≤ 8 * limit) (keys : List rdb_slice_t)
    (data : List Nat) :
    keys.foldlM (fun data key => bloom_add_checked rdb_hash bloom data key bits limit) data
      = some (keys.foldl (fun data key => bloom_add rdb_hash bloom data key bits) data) := by
  induction keys generalizing data with
  | nil => rfl
  | cons key keys ih =>
    have hstep : bloom_add_checked rdb_hash bloom data key bits limit
        = some (bloom_add rdb_hash bloom data key bits) :=
      bloom_add_loop_checked_eq _ _ _ hb hlim _ _ _
    rw [List.foldlM_cons, hstep, List.foldl_cons]
    exact ih _

theorem bloom_build_checked_eq (rdb_hash : List Nat → Nat → Nat) (bloom : rdb_bloom_t)
    (dst : rdb_buffer_t) (keys : List rdb_slice_t) (hdef : bloom_size bloom keys.length ≠ 0) :
    bloom_build_checked rdb_hash bloom dst keys = some (bloom_build rdb_hash bloom dst keys) := by
  have hge := bloom_size_ge bloom keys.length
    ((bloom_size_ne_zero_iff bloom keys.length).mp hdef)
  have hlt := bloom_size_lt bloom keys.length
  have hbits : bloom_size bloom keys.length * 8 % 2 ^ 64 = bloom_size bloom keys.length * 8 :=
    Nat.mod_eq_of_lt (by omega)
  have hlen : (keys.foldl (fun data key => bloom_add rdb_hash bloom data key
      (bloom_size bloom keys.length * 8))
      (List.drop (rdb_buffer_pad dst ((bloom_size bloom keys.length + 1) % 2 ^ 64)).2
        (rdb_buffer_pad dst ((bloom_size bloom keys.length + 1) % 2 ^ 64)).1)).length
      = bloom_size bloom keys.length + 1 := by
    have h1 : (bloom_size bloom keys.length + 1) % 2 ^ 64 = bloom_size bloom keys.length + 1 :=
      Nat.mod_eq_of_lt (by omega)
    rw [foldl_bloom_add_length]
    simp only [rdb_buffer_pad, h1, List.drop_left, List.length_replicate]
  unfold bloom_build_checked bloom_build
  simp only [hbits]
  rw [foldlM_bloom_add_checked rdb_hash bloom _ _ (by omega) (by omega)]
  simp only [hlen]
  rw [if_pos (by omega)]

/-- C17. No division by zero and no out-of-range index. For every policy and every key
list of length `n` with `n * bits_per_key + 7 < 2 ^ 64`: `bloom_build` is the fold of
`bloom_add` with modulus `bytes * 8` over a region of `bytes + 1` zero bytes, followed by
the store of `k` at index `bytes`; that modulus is at least 64; every byte index
`bloom_add` writes is below `bytes`; and the checked build, which stops at a division by
zero or at an index outside the bit array, completes with the result of `bloom_build`.
For every blob of length `len ≥ 2` (its bit count a `size_t`) with trailing byte at most
30, the modulus of `bloom_match` is not zero and every byte index it reads is below
`len - 1`: the checked loop completes with the result of `bloom_match`. -/
theorem bloom_no_undefined_access (rdb_hash : List Nat → Nat → Nat) (p q : rdb_bloom_t)
    (K : List rdb_slice_t) (hsz : K.length * p.bits_per_key + 7 < 2 ^ 64) :
    (∀ dst : rdb_buffer_t, bloom_build rdb_hash p dst K = dst ++
      (K.foldl (fun data key =>
          bloom_add rdb_hash p data key (bloom_size p K.length * 8 % 2 ^ 64))
        (List.replicate (bloom_size p K.length + 1) 0)).set
        (bloom_size p K.length) (p.k % 256)) ∧
    (∀ dst : rdb_buffer_t,
      bloom_build_checked rdb_hash p dst K = some (bloom_build rdb_hash p dst K)) ∧
    64 ≤ bloom_size p K.length * 8 % 2 ^ 64 ∧
    (∀ (key : rdb_slice_t) (data : List Nat),
      bloom_add_loop_checked (bloom_size p K.length * 8 % 2 ^ 64)
          (bloom_delta (bloom_hash rdb_hash key)) (bloom_size p K.length) p.k
          (bloom_hash rdb_hash key) data
        = some (bloom_add rdb_hash p data key (bloom_size p K.length * 8 % 2 ^ 64))) ∧
    (∀ (key : rdb_slice_t),
      ∀ pos ∈ key_probes rdb_hash p.k (bloom_size p K.length * 8 % 2 ^ 64) key,
        pos / 8 < bloom_size p K.length) ∧
    (∀ (filter key : rdb_slice_t), 2 ≤ filter.length →
      filter.getD (filter.length - 1) 0 ≤ 30 → (filter.length - 1) * 8 < 2 ^ 64 →
      (filter.length - 1) * 8 % 2 ^ 64 ≠ 0 ∧
      bloom_match_loop_checked filter ((filter.length - 1) * 8 % 2 ^ 64)
          (bloom_delta (bloom_hash rdb_hash key)) (filter.length - 1)
          (filter.getD (filter.length - 1) 0) (bloom_hash rdb_hash key)
        = some (bloom_match rdb_hash q filter key) ∧
      ∀ pos ∈ key_probes rdb_hash (filter.getD (filter.length - 1) 0)
          ((filter.length - 1) * 8 % 2 ^ 64) key,
        pos / 8 < filter.length - 1) := by
  have hmod : K.length * p.bits_per_key % 2 ^ 64 + 7 < 2 ^ 64 := by
    rw [Nat.mod_eq_of_lt (by omega)]; exact hsz
  have hge := bloom_size_ge p K.length hmod
  have hdef : bloom_size p K.length ≠ 0 := (bloom_size_ne_zero_iff p K.length).mpr hmod
  have hlt := bloom_size_lt p K.length
  have hbits : bloom_size p K.length * 8 % 2 ^ 64 = bloom_size p K.length * 8 :=
    Nat.mod_eq_of_lt (by omega)
  rw [hbits]
  refine ⟨fun dst => bloom_build_eq rdb_hash p dst K,
    fun dst => bloom_build_checked_eq rdb_hash p dst K hdef, by omega, ?_, ?_, ?_⟩
  · intro key data
    exact bloom_add_loop_checked_eq _ _ _ (by omega) (by omega) _ _ _
  · intro key pos hpos
    exact key_probes_div_lt rdb_hash _ _ _ (by omega) (by omega) key pos hpos
  · intro filter key hlen hk hfit
    rw [Nat.mod_eq_of_lt hfit]
    have h1 : ¬ filter.length < 2 := by omega
    have h2 : ¬ filter.getD (filter.length - 1) 0 > 30 := by omega
    refine ⟨by omega, ?_, ?_⟩
    · rw [bloom_match_loop_checked_eq _ _ _ _ (by omega) (by omega)]
      simp only [bloom_match, h1, h2, if_false, bloom_delta, Nat.mod_eq_of_lt hfit]
    · intro pos hpos
      exact key_probes_div_lt rdb_hash _ _ _ (by omega) (by omega) key pos hpos

theorem bloom_no_undefined_access_witness :
    ([[1, 2], [3]] : List rdb_slice_t).length * bloom_default.bits_per_key + 7 < 2 ^ 64 ∧
    bloom_build_checked (fun data seed => data.sum + seed) bloom_default [9] [[1, 2], [3]]
      = some (bloom_build (fun data seed => data.sum + seed) bloom_default [9] [[1, 2], [3]]) ∧
    64 ≤ bloom_size bloom_default ([[1, 2], [3]] : List rdb_slice_t).length * 8 % 2 ^ 64 ∧
    bloom_add_loop_checked (bloom_size bloom_default ([[1, 2], [3]] : List rdb_slice_t).length
          * 8 % 2 ^ 64)
        (bloom_delta (bloom_hash (fun data seed => data.sum + seed) [3]))
        (bloom_size bloom_default ([[1, 2], [3]] : List rdb_slice_t).length) bloom_default.k
        (bloom_hash (fun data seed => data.sum + seed) [3]) (List.replicate 9 0)
      = some (bloom_add (fun data seed => data.sum + seed) bloom_default (List.replicate 9 0) [3]
          (bloom_size bloom_default ([[1, 2], [3]] : List rdb_slice_t).length * 8 % 2 ^ 64)) :=
  ⟨by decide,
    (bloom_no_undefined_access (fun data seed => data.sum + seed) bloom_default bloom_default
      [[1, 2], [3]] (by decide)).2.1 [9],
    (bloom_no_undefined_access (fun data seed => data.sum + seed) bloom_default bloom_default
      [[1, 2], [3]] (by decide)).2.2.1,
    (bloom_no_undefined_access (fun data seed => data.sum + seed) bloom_default bloom_default
      [[1, 2], [3]] (by decide)).2.2.2.1 [3] (List.replicate 9 0)⟩

/-! ## A trailing byte of zero -/

/-- C18. A blob of length at least 2 whose trailing byte is 0 matches every key, for
every policy and whatever the bit array holds: the probe loop runs zero times (there is
no probe position). `bloom_build` with a policy from `rdb_bloom_init` never produces such
a blob: its trailing byte is the policy's `k`, which is at least 1. -/
theorem bloom_match_zero_k (rdb_hash : List Nat → Nat → Nat) (bloom : rdb_bloom_t)
    (filter key : rdb_slice_t) (hlen : 2 ≤ filter.length)
    (hk : filter.getD (filter.length - 1) 0 = 0) :
    bloom_match rdb_hash bloom filter key = 1 ∧
    key_probes rdb_hash (filter.getD (filter.length - 1) 0)
      ((filter.length - 1) * 8 % 2 ^ 64) key = [] ∧
    ∀ (b0 : rdb_bloom_t) (bits_per_key : Nat) (K : List rdb_slice_t),
      (bloom_build rdb_hash (rdb_bloom_init b0 bits_per_key) [] K).getD
          ((bloom_build rdb_hash (rdb_bloom_init b0 bits_per_key) [] K).length - 1) 0
        = (rdb_bloom_init b0 bits_per_key).k ∧
      (rdb_bloom_init b0 bits_per_key).k ≠ 0 := by
  have h1 : ¬ filter.length < 2 := by omega
  refine ⟨?_, ?_, ?_⟩
  · simp only [bloom_match, h1, hk, if_false]
    rfl
  · rw [hk]
    rfl
  · intro b0 bits_per_key K
    obtain ⟨hk1, hk30⟩ := rdb_bloom_init_k_bounds b0 bits_per_key
    have hlast := bloom_build_last rdb_hash (rdb_bloom_init b0 bits_per_key) K
    have hlen' := bloom_build_length rdb_hash (rdb_bloom_init b0 bits_per_key) [] K
    rw [Nat.mod_eq_of_lt (by omega)] at hlast
    rw [hlen']
    simp only [List.length_nil, Nat.zero_add, Nat.add_sub_cancel]
    exact ⟨hlast, by omega⟩

theorem bloom_match_zero_k_witness :
    2 ≤ ([0, 0, 0] : rdb_slice_t).length ∧
    ([0, 0, 0] : rdb_slice_t).getD (([0, 0, 0] : rdb_slice_t).length - 1) 0 = 0 ∧
    bloom_match (fun data seed => data.sum + seed) bloom_default [0, 0, 0] [1, 2, 3] = 1 :=
  ⟨by decide, by decide,
    (bloom_match_zero_k (fun data seed => data.sum + seed) bloom_default [0, 0, 0] [1, 2, 3]
      (by decide) (by decide)).1⟩

/-! ## Order and repetition of keys -/

theorem or_mod_or_mod_comm (x a b : Nat) :
    ((x ||| a) % 256 ||| b) % 256 = ((x ||| b) % 256 ||| a) % 256 := by
  have h256 : (256 : Nat) = 2 ^ 8 := by norm_num
  apply Nat.eq_of_testBit_eq
  intro i
  simp only [h256, Nat.testBit_mod_two_pow, Nat.testBit_lor]
  cases decide (i < 8) <;> cases x.testBit i <;> cases a.testBit i <;> cases b.testBit i <;> rfl

theorem or_mod_or_mod_self (x a : Nat) :
    ((x ||| a) % 256 ||| a) % 256 = (x ||| a) % 256 := by
  have h256 : (256 : Nat) = 2 ^ 8 := by norm_num
  apply Nat.eq_of_testBit_eq
  intro i
  simp only [h256, Nat.testBit_mod_two_pow, Nat.testBit_lor]
  cases decide (i < 8) <;> cases x.testBit i <;> cases a.testBit i <;> rfl

theorem length_set_bit (data : List Nat) (pos : Nat) :
    (set_bit data pos).length = data.length := by
  simp [set_bit]

theorem getElem?_set_bit (data : List Nat) (pos j : Nat) :
    (set_bit data pos)[j]? =
      if pos / 8 = j ∧ j < data.length then
        some ((data[j]?.getD 0 ||| (1 <<< (pos % 8))) % 256)
      else data[j]? := by
  unfold set_bit
  rw [List.getElem?_set, List.getD_eq_getElem?_getD]
  by_cases h1 : pos / 8 = j
  · subst h1
    by_cases h2 : pos / 8 < data.length
    · simp [h2]
    · simp [h2, List.getElem?_eq_none (Nat.le_of_not_lt h2)]
  · simp [h1]

theorem set_bit_comm (data : List Nat) (a b : Nat) :
    set_bit (set_bit data a) b = set_bit (set_bit data b) a := by
  apply List.ext_getElem?
  intro j
  simp only [getElem?_set_bit, length_set_bit]
  by_cases ha : a / 8 = j ∧ j < data.length <;> by_cases hb : b / 8 = j ∧ j < data.length
  · simp only [ha, hb, and_self, if_true, Option.getD_some]
    rw [or_mod_or_mod_comm]
  · have hb' : ¬ b / 8 = j := fun h => hb ⟨h, ha.2⟩
    simp only [ha, hb', and_self, false_and, if_true, if_false]
  · have ha' : ¬ a / 8 = j := fun h => ha ⟨h, hb.2⟩
    simp only [ha', hb, and_self, false_and, if_true, if_false]
  · simp only [ha, hb, if_false]

theorem set_bit_idem (data : List Nat) (a : Nat) :
    set_bit (set_bit data a) a = set_bit data a := by
  apply List.ext_getElem?
  intro j
  simp only [getElem?_set_bit, length_set_bit]
  by_cases ha : a / 8 = j ∧ j < data.length
  · simp only [ha, and_self, if_true, Option.getD_some]
    rw [or_mod_or_mod_self]
  · simp only [ha, if_false]

theorem foldl_set_bit_perm (P Q : List Nat) (h : P.Perm Q) (data : List Nat) :
    P.foldl set_bit data = Q.foldl set_bit data :=
  h.foldl_eq' (fun x _ y _ z => set_bit_comm z x y) data

theorem foldl_set_bit_twice (P : List Nat) (data : List Nat) :
    P.foldl set_bit (P.foldl set_bit data) = P.foldl set_bit data := by
  induction P generalizing data with
  | nil => rfl
  | cons a P ih =>
    have hperm : ((a :: P) ++ (a :: P)).Perm (a :: a :: (P ++ P)) := by
      simp
    rw [← List.foldl_append, foldl_set_bit_perm _ _ hperm]
    simp only [List.foldl_cons, set_bit_idem, List.foldl_append]
    exact ih _

theorem bloom_add_comm (rdb_hash : List Nat → Nat → Nat) (bloom : rdb_bloom_t)
    (data : List Nat) (key1 key2 : rdb_slice_t) (bits : Nat) :
    bloom_add rdb_hash bloom (bloom_add rdb_hash bloom data key1 bits) key2 bits
      = bloom_add rdb_hash bloom (bloom_add rdb_hash bloom data key2 bits) key1 bits := by
  simp only [bloom_add_eq_foldl, ← List.foldl_append]
  exact foldl_set_bit_perm _ _ List.perm_append_comm data

theorem bloom_add_idem (rdb_hash : List Nat → Nat → Nat) (bloom : rdb_bloom_t)
    (data : List Nat) (key : rdb_slice_t) (bits : Nat) :
    bloom_add rdb_hash bloom (bloom_add rdb_hash bloom data key bits) key bits
      = bloom_add rdb_hash bloom data key bits := by
  simp only [bloom_add_eq_foldl]
  exact foldl_set_bit_twice _ _

/-- C16. Build ignores key order: for every policy and every two key lists that are
permutations of each other (hence of the same length), `bloom_build` produces identical
buffers; adding a key a second time leaves the bit array unchanged (`bloom_add` is
idempotent), and any two `bloom_add` calls commute. -/
theorem bloom_build_perm (rdb_hash : List Nat → Nat → Nat) (bloom : rdb_bloom_t)
    (dst : rdb_buffer_t) (K K' : List rdb_slice_t) (hperm : K.Perm K') :
    K.length = K'.length ∧
    bloom_build rdb_hash bloom dst K = bloom_build rdb_hash bloom dst K' ∧
    (∀ (data : List Nat) (key : rdb_slice_t) (bits : Nat),
      bloom_add rdb_hash bloom (bloom_add rdb_hash bloom data key bits) key bits
        = bloom_add rdb_hash bloom data key bits) ∧
    (∀ (data : List Nat) (key1 key2 : rdb_slice_t) (bits : Nat),
      bloom_add rdb_hash bloom (bloom_add rdb_hash bloom data key1 bits) key2 bits
        = bloom_add rdb_hash bloom (bloom_add rdb_hash bloom data key2 bits) key1 bits) := by
  refine ⟨hperm.length_eq, ?_, fun data key bits => bloom_add_idem _ _ _ _ _,
    fun data key1 key2 bits => bloom_add_comm _ _ _ _ _ _⟩
  rw [bloom_build_eq, bloom_build_eq, ← hperm.length_eq]
  congr 2
  exact hperm.foldl_eq' (fun x _ y _ z => bloom_add_comm _ _ z x y _) _

theorem bloom_build_perm_witness :
    ([[1, 2], [3], [4, 5]] : List rdb_slice_t).Perm [[4, 5], [1, 2], [3]] ∧
    bloom_build (fun data seed => data.sum * 2654435761 + seed) bloom_default [9]
        [[1, 2], [3], [4, 5]]
      = bloom_build (fun data seed => data.sum * 2654435761 + seed) bloom_default [9]
        [[4, 5], [1, 2], [3]] :=
  ⟨by decide,
    (bloom_build_perm (fun data seed => data.sum * 2654435761 + seed) bloom_default [9]
      [[1, 2], [3], [4, 5]] [[4, 5], [1, 2], [3]] (by decide)).2.1⟩

/-! ## The probe positions of the build -/

theorem bit_at_bloom_build (rdb_hash : List Nat → Nat → Nat) (bloom : rdb_bloom_t)
    (K : List rdb_slice_t) (hdef : bloom_size bloom K.length ≠ 0) (pos : Nat)
    (hpos : pos < bloom_size bloom K.length * 8) :
    bit_at (bloom_build rdb_hash bloom [] K) pos
      = K.any (fun key =>
          decide (pos ∈ key_probes rdb_hash bloom.k (bloom_size bloom K.length * 8) key)) := by
  have hge := bloom_size_ge bloom K.length ((bloom_size_ne_zero_iff bloom K.length).mp hdef)
  rw [bloom_build_eq, List.nil_append, bit_at_set_other _ _ _ _ (by omega),
    bit_at_foldl_bloom_add _ _ _ (by omega) _ _ (by rw [List.length_replicate]; omega),
    bit_at_replicate_zero, Bool.false_or]

theorem bloom_add_eq_foldl_range (rdb_hash : List Nat → Nat → Nat) (bloom : rdb_bloom_t)
    (data : List Nat) (key : rdb_slice_t) (bits : Nat) :
    bloom_add rdb_hash bloom data key bits
      = (List.range bloom.k).foldl (fun d i => set_bit d
          ((bloom_hash rdb_hash key + i * rotate_right_32 (bloom_hash rdb_hash key) 17)
            % 2 ^ 32 % bits)) data := by
  rw [bloom_add_eq_foldl, key_probes, probe_positions_eq_map _ _ _ _ (bloom_hash_lt rdb_hash key),
    List.foldl_map]
  have hd := bloom_delta_eq_rotate _ (bloom_hash_lt rdb_hash key)
  unfold bloom_delta at hd
  rw [hd]

/-- C12, as stated, fails. With 7 keys and `bits_per_key = 10` the target bit count is 70
but the modulus is 72: for the key `[1]` step 0 sets bit 21, and bit 59, the position
`hash mod 70`, stays unset. With 8 keys both counts are 80, but for the key `[8]` the
running hash wraps around `2 ^ 32` at step 1: bit 43 is set, and bit 59, the position
`(hash + delta) mod 80`, stays unset. -/
theorem bloom_build_position_not_spec :
    ((key_probes (fun data seed => data.sum + seed) bloom_default.k
        (bloom_size bloom_default 7 * 8) [1]).getD 0 0 = 21 ∧
      spec_position (bloom_hash (fun data seed => data.sum + seed) [1])
        (rotate_right_32 (bloom_hash (fun data seed => data.sum + seed) [1]) 17) 7
        bloom_default.bits_per_key 0 = 59 ∧
      bit_at (bloom_build (fun data seed => data.sum + seed) bloom_default []
        [[1], [2], [3], [4], [5], [6], [7]]) 21 = true ∧
      bit_at (bloom_build (fun data seed => data.sum + seed) bloom_default []
        [[1], [2], [3], [4], [5], [6], [7]]) 59 = false) ∧
    ((key_probes (fun data seed => data.sum + seed) bloom_default.k
        (bloom_size bloom_default 8 * 8) [8]).getD 1 0 = 43 ∧
      spec_position (bloom_hash (fun data seed => data.sum + seed) [8])
        (rotate_right_32 (bloom_hash (fun data seed => data.sum + seed) [8]) 17) 8
        bloom_default.bits_per_key 1 = 59 ∧
      bit_at (bloom_build (fun data seed => data.sum + seed) bloom_default []
        [[1], [2], [3], [4], [5], [6], [7], [8]]) 43 = true ∧
      bit_at (bloom_build (fun data seed => data.sum + seed) bloom_default []
        [[1], [2], [3], [4], [5], [6], [7], [8]]) 59 = false) := by
  decide

/-- C12, amended. For every policy and every key list of length `n` (with
`n * bits_per_key` a `size_t` and `bloom_build` defined), the bit `bloom_build` sets for
a key at step `i < k` is at position `((hash + i * delta) mod 2 ^ 32) mod bits`, where
`hash` is the 32-bit hash of the key, `delta` is `hash` rotated right by 17 bits, and
`bits = 8 * ceil(max(64, n * bits_per_key) / 8)` is the target bit count rounded up to a
whole number of bytes: the build is the zeroed region with these bits set one after the
other, followed by the store of `k`, and each of these bits is set in its result. -/
theorem bloom_build_probe_positions (rdb_hash : List Nat → Nat → Nat) (bloom : rdb_bloom_t)
    (K : List rdb_slice_t) (hmul : K.length * bloom.bits_per_key < 2 ^ 64)
    (hdef : bloom_size bloom K.length ≠ 0) :
    ∃ bits : Nat,
      bits = 8 * ⌈((max 64 (K.length * bloom.bits_per_key) : Nat) : ℚ) / 8⌉₊ ∧
      (∀ dst : rdb_buffer_t, bloom_build rdb_hash bloom dst K = dst ++
        (K.foldl (fun data key =>
            (List.range bloom.k).foldl (fun d i => set_bit d
              ((bloom_hash rdb_hash key + i * rotate_right_32 (bloom_hash rdb_hash key) 17)
                % 2 ^ 32 % bits)) data)
          (List.replicate (bits / 8 + 1) 0)).set (bits / 8) (bloom.k % 256)) ∧
      ∀ key ∈ K, ∀ i, i < bloom.k →
        bit_at (bloom_build rdb_hash bloom [] K)
          ((bloom_hash rdb_hash key + i * rotate_right_32 (bloom_hash rdb_hash key) 17)
            % 2 ^ 32 % bits) = true := by
  have hsz : K.length * bloom.bits_per_key + 7 < 2 ^ 64 := by
    have := (bloom_size_ne_zero_iff bloom K.length).mp hdef
    rwa [Nat.mod_eq_of_lt hmul] at this
  have hge := bloom_size_ge bloom K.length ((bloom_size_ne_zero_iff bloom K.length).mp hdef)
  refine ⟨8 * bloom_size bloom K.length, ?_, ?_, ?_⟩
  · rw [ceil_div_eight, bloom_size_eq bloom K.length hsz]
  · intro dst
    rw [bloom_build_eq, Nat.mul_div_cancel_left _ (by norm_num : 0 < 8), Nat.mul_comm 8]
    simp only [bloom_add_eq_foldl_range]
  · intro key hkey i hi
    have hpos : (bloom_hash rdb_hash key + i * rotate_right_32 (bloom_hash rdb_hash key) 17)
        % 2 ^ 32 % (8 * bloom_size bloom K.length) < bloom_size bloom K.length * 8 := by
      rw [Nat.mul_comm 8]
      exact Nat.mod_lt _ (by omega)
    rw [bit_at_bloom_build rdb_hash bloom K hdef _ hpos, List.any_eq_true]
    refine ⟨key, hkey, ?_⟩
    rw [decide_eq_true_eq, key_probes_mem]
    refine ⟨i, hi, ?_⟩
    rw [bloom_delta_eq_rotate _ (bloom_hash_lt rdb_hash key), Nat.mul_comm 8]

theorem bloom_build_probe_positions_witness :
    ([[1], [2], [3], [4], [5], [6], [7]] : List rdb_slice_t).length
      * bloom_default.bits_per_key < 2 ^ 64 ∧
    bloom_size bloom_default ([[1], [2], [3], [4], [5], [6], [7]] : List rdb_slice_t).length ≠ 0 ∧
    ∃ bits : Nat,
      bits = 8 * ⌈((max 64 (([[1], [2], [3], [4], [5], [6], [7]] : List rdb_slice_t).length
        * bloom_default.bits_per_key) : Nat) : ℚ) / 8⌉₊ ∧
      ∀ key ∈ ([[1], [2], [3], [4], [5], [6], [7]] : List rdb_slice_t), ∀ i,
        i < bloom_default.k →
        bit_at (bloom_build (fun data seed => data.sum + seed) bloom_default []
            [[1], [2], [3], [4], [5], [6], [7]])
          ((bloom_hash (fun data seed => data.sum + seed) key
            + i * rotate_right_32 (bloom_hash (fun data seed => data.sum + seed) key) 17)
            % 2 ^ 32 % bits) = true := by
  obtain ⟨bits, h1, _, h3⟩ :=
    bloom_build_probe_positions (fun data seed => data.sum + seed) bloom_default
      [[1], [2], [3], [4], [5], [6], [7]] (by decide) (by decide)
  exact ⟨by decide, by decide, bits, h1, h3⟩

end Lcdb
